import Mathlib

/-!
# raveloxmidi `kv_table.c`: an ordered, case-insensitive key/value table

A shallow embedding of `src/kv_table.c`.

* A C string (`char *`) is an `Option String`: `none` is the null pointer, `some s`
  holds the characters before the terminating NUL.
* `kv_table_t *` is an `Option kv_table_t`; a function that writes through the pointer
  returns the table as it is after the call.
* `table->items` is an `Option (List (Option kv_item_t))`: `none` is the null pointer,
  `some l` a block of item pointers; a slot of `l` is `some item` when it points to an
  item and `none` otherwise.  `table->count` is kept as a separate field, as in C.
* An access that C leaves undefined (a slot outside the block, a null pointer handed to
  `strcasecmp` or dereferenced) is reported as a `Fault`.
* The outcome of every request to the allocation collaborator is an input (`alloc_t`).
* `count` is a natural number: the wrap-around of the C integer type is not modelled.
-/

namespace KvTable

/-- Undefined accesses of the C program. -/
inductive Fault where
  | null_deref
  | out_of_bounds
  deriving DecidableEq, Repr

deriving instance DecidableEq for Except

/-- The record `kv_item_t`: two owned C strings. -/
structure kv_item_t where
  key : Option String
  value : Option String
  deriving DecidableEq, Repr

/-- The record `kv_table_t` without its lock.  `items` is the block of item pointers:
a slot is `none` when it holds no valid pointer (null, or never written). -/
structure kv_table_t where
  name : Option String
  items : Option (List (Option kv_item_t))
  count : Nat
  deriving DecidableEq, Repr

/-- Outcomes of the requests `kv_add_item` makes to the allocation collaborator:
`true` when the request succeeds. -/
structure alloc_t where
  item : Bool
  key : Bool
  value : Bool
  list : Bool
  deriving DecidableEq, Repr

/-- Every request succeeds. -/
def alloc_ok : alloc_t := ⟨true, true, true, true⟩

/-- Modelled from the spec: the macro `X_STRDUP` of `utils.h` (duplicate-text of the
allocation collaborator): an owned copy of the text, or null when the request fails. -/
def X_STRDUP (ok : Bool) (s : String) : Option String :=
  if ok then some s else none

/-- Modelled from the spec: the macro `X_MALLOC` of `utils.h` (allocate-zeroed-block of the
allocation collaborator): a zeroed record, or null when the request fails. -/
def X_MALLOC {α : Type} (ok : Bool) (zeroed : α) : Option α :=
  if ok then some zeroed else none

/-- Modelled from the spec: the macro `X_REALLOC` of `utils.h` (reallocate-block of the
allocation collaborator), resizing a block of item pointers to `n` slots: the old slots
are kept, the added ones hold no valid pointer; null when the request fails, the old
block staying as it is. -/
def X_REALLOC (ok : Bool) (old : Option (List (Option kv_item_t))) (n : Nat) :
    Option (List (Option kv_item_t)) :=
  if ok then some ((old.getD []).take n ++ List.replicate (n - (old.getD []).length) none)
  else none

/-- The C library `tolower` in the C locale. -/
def tolower (c : Char) : Char := c.toLower

/-- The C library `strcasecmp` on the characters of two strings: zero when they agree up
to `tolower`, otherwise negative or positive as the first differs. -/
def strcasecmp_chars : List Char → List Char → Int
  | [], [] => 0
  | [], _ :: _ => -1
  | _ :: _, [] => 1
  | c :: s1, d :: s2 =>
    if tolower c = tolower d then strcasecmp_chars s1 s2
    else ((tolower c).toNat : Int) - ((tolower d).toNat : Int)

/-- The C library `strcasecmp`; a null argument is undefined. -/
def strcasecmp (s1 s2 : Option String) : Except Fault Int :=
  match s1, s2 with
  | some a, some b => .ok (strcasecmp_chars a.toList b.toList)
  | _, _ => .error .null_deref

/-- The C library `strlen`. -/
def strlen (s : String) : Nat := s.length

/-- The `for` loop of `kv_find_item`, entered at index `i` with `n = count - i` rounds
left.  The item found is named by its slot. -/
def kv_find_item_loop (key : String) (items : List (Option kv_item_t)) :
    Nat → Nat → Except Fault (Option Nat)
  | 0, _ => .ok none
  | n + 1, i =>
    match items.get? i with
    | none => .error .out_of_bounds
    | some none => .error .null_deref
    | some (some it) =>
      match strcasecmp (some key) it.key with
      | .error f => .error f
      | .ok r => if r = 0 then .ok (some i) else kv_find_item_loop key items n (i + 1)

/-- The function `kv_find_item`: the item it returns is named by its slot. -/
def kv_find_item (table : Option kv_table_t) (key : Option String) :
    Except Fault (Option Nat) :=
  match table with
  | none => .ok none
  | some t =>
    match key with
    | none => .ok none
    | some k =>
      match t.items with
      | none => .ok none
      | some l =>
        if t.count ≤ 0 then .ok none
        else kv_find_item_loop k l t.count 0

/-- The item a pointer returned by `kv_find_item` refers to. -/
def kv_item_at (t : kv_table_t) (i : Nat) : Except Fault kv_item_t :=
  match t.items with
  | none => .error .null_deref
  | some l =>
    match l.get? i with
    | none => .error .out_of_bounds
    | some none => .error .null_deref
    | some (some it) => .ok it

/-- The function `kv_get_value`. -/
def kv_get_value (table : Option kv_table_t) (key : Option String) :
    Except Fault (Option String) :=
  match kv_find_item table key with
  | .error f => .error f
  | .ok none => .ok none
  | .ok (some i) =>
    match table with
    | none => .error .null_deref
    | some t =>
      match kv_item_at t i with
      | .error f => .error f
      | .ok item => .ok item.value

/-- The function `kv_add_item`: the table after the call. -/
def kv_add_item (a : alloc_t) (table : Option kv_table_t) (key value : Option String) :
    Except Fault (Option kv_table_t) :=
  match table with
  | none => .ok none
  | some t =>
    match key with
    | none => .ok (some t)
    | some k =>
      if strlen k = 0 then .ok (some t)
      else
        match kv_find_item (some t) (some k) with
        | .error f => .error f
        | .ok none =>
          match X_MALLOC a.item (⟨none, none⟩ : kv_item_t) with
          | none => .ok (some t)
          | some blank =>
            let new_item : kv_item_t :=
              { blank with
                key := X_STRDUP a.key k
                value := match value with
                  | some v => X_STRDUP a.value v
                  | none => none }
            match X_REALLOC a.list t.items (t.count + 1) with
            | none => .ok (some t)
            | some new_item_list =>
              .ok (some { t with
                items := some (new_item_list.set t.count (some new_item))
                count := t.count + 1 })
        | .ok (some i) =>
          match kv_item_at t i with
          | .error f => .error f
          | .ok item =>
            let item2 : kv_item_t :=
              { item with
                value := match value with
                  | some v => X_STRDUP a.value v
                  | none => none }
            .ok (some { t with items := some ((t.items.getD []).set i (some item2)) })

/-- The function `kv_item_count`. -/
def kv_item_count (table : Option kv_table_t) : Nat :=
  match table with
  | none => 0
  | some t => t.count

/-- The function `kv_get_item_by_index`: the pair written to `*key` and `*value`. -/
def kv_get_item_by_index (table : Option kv_table_t) (index : Nat) :
    Except Fault (Option String × Option String) :=
  match table with
  | none => .ok (none, none)
  | some t =>
    if index > t.count then .ok (none, none)
    else
      match kv_item_at t index with
      | .error f => .error f
      | .ok item => .ok (item.key, item.value)

/-- The function `kv_table_create`; `ok` is the outcome of allocating the table record,
`ok_name` that of duplicating the name. -/
def kv_table_create (ok ok_name : Bool) (name : Option String) : Option kv_table_t :=
  match X_MALLOC ok (⟨none, none, 0⟩ : kv_table_t) with
  | none => none
  | some new_table =>
    some { new_table with
      name := match name with
        | some n => X_STRDUP ok_name n
        | none => new_table.name
      items := none
      count := 0 }

/-- A sequence of `kv_add_item` calls on one table, each with the outcomes of its
allocation requests; it stops at the first undefined access. -/
def kv_add_items : Option kv_table_t → List (alloc_t × Option String × Option String) →
    Except Fault (Option kv_table_t)
  | table, [] => .ok table
  | table, (a, key, value) :: rest =>
    match kv_add_item a table key value with
    | .error f => .error f
    | .ok table2 => kv_add_items table2 rest

/-- The caller's loop over `kv_get_item_by_index` for `i = 0 .. kv_item_count - 1`. -/
def kv_iterate (table : Option kv_table_t) :
    List (Except Fault (Option String × Option String)) :=
  (List.range (kv_item_count table)).map (kv_get_item_by_index table)

/-! ## Destruction and the lock

The mutex of a table is not a field of the embedding.  What a call does to it is recorded
as a list of events, together with the reads and writes of `items` and `count`. -/

/-- What one call does, in order, to the lock of a table and to `items` and `count`:
`access` is one statement or condition that reads or writes `table->items`,
`table->count` or a slot of the block. -/
inductive Event where
  | lock
  | unlock
  | lock_destroy
  | access
  deriving DecidableEq, Repr

/-- The function `kv_table_lock`: the events of the call. -/
def kv_table_lock (table : Option kv_table_t) : List Event :=
  match table with
  | none => []
  | some _ => [.lock]

/-- The function `kv_table_unlock`: the events of the call. -/
def kv_table_unlock (table : Option kv_table_t) : List Event :=
  match table with
  | none => []
  | some _ => [.unlock]

/-- The `for` loop of `kv_table_destroy`, entered at index `i` with `n = count - i` rounds
left: its events and the block after it.  A round tests `i < count`, tests the slot and,
when the slot points to an item, releases the key, the value and the item and nulls the
slot. -/
def kv_table_destroy_loop (items : List (Option kv_item_t)) :
    Nat → Nat → List Event × Except Fault (List (Option kv_item_t))
  | 0, _ => ([.access], .ok items)
  | n + 1, i =>
    match items.get? i with
    | none => ([.access, .access], .error .out_of_bounds)
    | some none =>
      let r := kv_table_destroy_loop items n (i + 1)
      (.access :: .access :: r.1, r.2)
    | some (some _) =>
      let r := kv_table_destroy_loop (items.set i none) n (i + 1)
      (.access :: .access :: .access :: r.1, r.2)

/-- The function `kv_table_destroy` on the pointer `table` to the caller's handle: the
events of the call and the handle `*table` after it (`none` when `table` itself is
null). -/
def kv_table_destroy_run (table : Option (Option kv_table_t)) :
    List Event × Except Fault (Option (Option kv_table_t)) :=
  match table with
  | none => ([], .ok none)
  | some none => ([], .ok (some none))
  | some (some t) =>
    let kv_table_destroy_end : List Event := kv_table_unlock (some t) ++ [.lock_destroy]
    match t.items with
    | none => (kv_table_lock (some t) ++ [.access] ++ kv_table_destroy_end, .ok (some none))
    | some l =>
      if t.count ≤ 0 then
        (kv_table_lock (some t) ++ [.access, .access] ++ kv_table_destroy_end, .ok (some none))
      else
        match kv_table_destroy_loop l t.count 0 with
        | (ev, .error f) => (kv_table_lock (some t) ++ [.access, .access] ++ ev, .error f)
        | (ev, .ok _) =>
          (kv_table_lock (some t) ++ [.access, .access] ++ ev ++ [.access, .access, .access]
            ++ kv_table_destroy_end, .ok (some none))

/-- The function `kv_table_destroy`: the caller's handle after the call. -/
def kv_table_destroy (table : Option (Option kv_table_t)) :
    Except Fault (Option (Option kv_table_t)) :=
  (kv_table_destroy_run table).2

/-- The function `kv_table_destroy`: the events of the call. -/
def kv_table_destroy_events (table : Option (Option kv_table_t)) : List Event :=
  (kv_table_destroy_run table).1

/-- The function `kv_item_count`: the events of the call. -/
def kv_item_count_events (table : Option kv_table_t) : List Event :=
  match table with
  | none => []
  | some t => kv_table_lock (some t) ++ [.access] ++ kv_table_unlock (some t)

/-- The function `kv_get_item_by_index`: the events of the call.  An undefined read of
the slot ends the call. -/
def kv_get_item_by_index_events (table : Option kv_table_t) (index : Nat) : List Event :=
  match table with
  | none => []
  | some t =>
    if index > t.count then
      kv_table_lock (some t) ++ [.access] ++ kv_table_unlock (some t)
    else
      match kv_item_at t index with
      | .error _ => kv_table_lock (some t) ++ [.access, .access]
      | .ok _ => kv_table_lock (some t) ++ [.access, .access, .access] ++ kv_table_unlock (some t)

/-- The events of the `for` loop of `kv_find_item`: a round tests `i < count` and reads
the slot; a match reads the slot once more to return it. -/
def kv_find_item_loop_events (key : String) (items : List (Option kv_item_t)) :
    Nat → Nat → List Event
  | 0, _ => [.access]
  | n + 1, i =>
    .access :: .access ::
      match items.get? i with
      | none => []
      | some none => []
      | some (some it) =>
        match strcasecmp (some key) it.key with
        | .error _ => []
        | .ok r => if r = 0 then [.access] else kv_find_item_loop_events key items n (i + 1)

/-- The function `kv_find_item`: the events of the call. -/
def kv_find_item_events (table : Option kv_table_t) (key : Option String) : List Event :=
  match table with
  | none => []
  | some t =>
    match key with
    | none => []
    | some k =>
      .access ::
        match t.items with
        | none => []
        | some l =>
          .access :: if t.count ≤ 0 then [] else kv_find_item_loop_events k l t.count 0

/-- The function `kv_get_value`: the events of the call (reading `item->value` touches
neither `items` nor `count`). -/
def kv_get_value_events (table : Option kv_table_t) (key : Option String) : List Event :=
  kv_find_item_events table key

/-- The function `kv_add_item`: the events of the call.  The add path reads `items` and
`count` for `X_REALLOC` and then writes `items`, the new slot and `count`; the update path
touches the found item only. -/
def kv_add_item_events (a : alloc_t) (table : Option kv_table_t) (key : Option String) :
    List Event :=
  match table with
  | none => []
  | some t =>
    match key with
    | none => []
    | some k =>
      if strlen k = 0 then []
      else
        kv_find_item_events (some t) (some k) ++
          match kv_find_item (some t) (some k) with
          | .error _ => []
          | .ok (some _) => []
          | .ok none =>
            match X_MALLOC a.item (⟨none, none⟩ : kv_item_t) with
            | none => []
            | some _ =>
              .access ::
                match X_REALLOC a.list t.items (t.count + 1) with
                | none => []
                | some _ => [.access, .access, .access]

/-- The lock discipline on the events of one call, the lock being held or not at the
start: no access happens while the lock is not held. -/
def lock_disciplined_from : Bool → List Event → Bool
  | _, [] => true
  | _, .lock :: rest => lock_disciplined_from true rest
  | _, .unlock :: rest => lock_disciplined_from false rest
  | held, .lock_destroy :: rest => lock_disciplined_from held rest
  | held, .access :: rest => held && lock_disciplined_from held rest

/-- The lock discipline on the events of one call that starts without the lock. -/
def lock_disciplined (events : List Event) : Bool := lock_disciplined_from false events

/-! ## Vocabulary of the properties -/

/-- Two keys are equal up to letter case. -/
def ci_eq (a b : String) : Prop := a.toList.map tolower = b.toList.map tolower

instance (a b : String) : Decidable (ci_eq a b) := by unfold ci_eq; infer_instance

/-- The slots of the block of a table (none for a null block). -/
def kv_table_t.slots (t : kv_table_t) : List (Option kv_item_t) := t.items.getD []

/-- A slot that points to an item with a key. -/
def slot_keyed (s : Option kv_item_t) : Bool :=
  match s with
  | some it => it.key.isSome
  | none => false

/-- The relation between the fields of a table that `kv_table_create` establishes and
`kv_add_item` keeps while key duplication succeeds: `count` is the number of slots and
every slot points to an item with a key. -/
def kv_table_t.well_formed (t : kv_table_t) : Prop :=
  t.count = t.slots.length ∧ ∀ s ∈ t.slots, slot_keyed s = true

instance (t : kv_table_t) : Decidable t.well_formed := by
  unfold kv_table_t.well_formed; infer_instance

/-- The key of a slot, when it has one. -/
def slot_key (s : Option kv_item_t) : Option String := s.bind (fun it => it.key)

/-- Two slots carry keys that are equal up to letter case. -/
def slots_ci_eq (s1 s2 : Option kv_item_t) : Prop :=
  match slot_key s1, slot_key s2 with
  | some a, some b => ci_eq a b
  | _, _ => False

instance (s1 s2 : Option kv_item_t) : Decidable (slots_ci_eq s1 s2) := by
  unfold slots_ci_eq; split <;> infer_instance

/-- No two items of the table have keys equal up to letter case. -/
def kv_table_t.no_duplicate_keys (t : kv_table_t) : Prop :=
  t.slots.Pairwise (fun s1 s2 => ¬ slots_ci_eq s1 s2)

instance (t : kv_table_t) : Decidable t.no_duplicate_keys := by
  unfold kv_table_t.no_duplicate_keys; infer_instance

/-- Two characters are the same, or the upper-case and the lower-case form of one
ASCII letter. -/
def same_letter (c d : Char) : Prop :=
  c = d ∨ (65 ≤ c.toNat ∧ c.toNat ≤ 90 ∧ d.toNat = c.toNat + 32) ∨
    (65 ≤ d.toNat ∧ d.toNat ≤ 90 ∧ c.toNat = d.toNat + 32)

/-- Two keys differ only in letter case: they have the same length and, position by
position, the same letters. -/
def differs_only_in_case (a b : String) : Prop :=
  List.Forall₂ same_letter a.toList b.toList

/-- A sequence of calls `kv_add_item(table, key, value)` in which every allocation
succeeds. -/
def all_succeed (calls : List (Option String × Option String)) :
    List (alloc_t × Option String × Option String) :=
  calls.map (fun c => (alloc_ok, c.1, c.2))

/-- The calls of a sequence that pass the argument checks of `kv_add_item` on a table:
the key is present and not empty. -/
def effective_puts (calls : List (Option String × Option String)) :
    List (String × Option String) :=
  calls.filterMap (fun c =>
    match c.1 with
    | some k => if k.length = 0 then none else some (k, c.2)
    | none => none)

/-- The distinct keys of a list of keys, keys equal up to letter case counting as one:
each in its first spelling, in the order of the first occurrences. -/
def first_keys : List String → List String
  | [] => []
  | k :: ks => k :: (first_keys ks).filter (fun k2 => ¬ ci_eq k k2)

/-- The value given by the last put whose key equals `k` up to letter case. -/
def last_value (puts : List (String × Option String)) (k : String) : Option String :=
  match puts.reverse.find? (fun p => ci_eq p.1 k) with
  | some p => p.2
  | none => none

/-- What the specification says iteration yields after a sequence of calls: one pair per
distinct key, in the order of first insertion, with the value of the last put of the key. -/
def expected_iteration (calls : List (Option String × Option String)) :
    List (Option String × Option String) :=
  (first_keys ((effective_puts calls).map Prod.fst)).map
    (fun k => (some k, last_value (effective_puts calls) k))

/-- The number of distinct non-empty keys of a sequence of calls, keys equal up to letter
case counting as one. -/
def distinct_keys (calls : List (Option String × Option String)) : Nat :=
  ((effective_puts calls).map (fun p => p.1.toList.map tolower)).toFinset.card

/-- The key `k` matches the key of the slot up to letter case. -/
def slot_matches (k : String) (s : Option kv_item_t) : Prop :=
  match slot_key s with
  | some k2 => ci_eq k k2
  | none => False

instance (k : String) (s : Option kv_item_t) : Decidable (slot_matches k s) := by
  unfold slot_matches; split <;> infer_instance

/-- The first slot whose key matches `k` up to letter case. -/
def first_match (k : String) : List (Option kv_item_t) → Option Nat
  | [] => none
  | s :: rest => if slot_matches k s then some 0 else (first_match k rest).map (· + 1)

/-! ## The library functions -/

theorem tolower_toNat_ne {c d : Char} (h : c ≠ d) : (c.toNat : Int) - (d.toNat : Int) ≠ 0 := by
  intro h0
  apply h
  have h1 : c.toNat = d.toNat := by omega
  exact Char.ext (UInt32.ext h1)

theorem strcasecmp_chars_eq_zero_iff (a b : List Char) :
    strcasecmp_chars a b = 0 ↔ a.map tolower = b.map tolower := by
  induction a generalizing b with
  | nil => cases b <;> simp [strcasecmp_chars]
  | cons c s1 ih =>
    cases b with
    | nil => simp [strcasecmp_chars]
    | cons d s2 =>
      by_cases h : tolower c = tolower d
      · simp [strcasecmp_chars, h, ih]
      · simp [strcasecmp_chars, h, tolower_toNat_ne h]

theorem tolower_upper (c d : Char) (h1 : 65 ≤ c.toNat) (h2 : c.toNat ≤ 90)
    (h3 : d.toNat = c.toNat + 32) : tolower c = tolower d := by
  have hc : tolower c = Char.ofNat (c.toNat + 32) := by
    simp only [tolower, Char.toLower]
    rw [if_pos ⟨h1, h2⟩]
  have hd : tolower d = d := by
    simp only [tolower, Char.toLower]
    rw [if_neg (by omega)]
  rw [hc, hd, ← h3, Char.ofNat_toNat]

theorem same_letter_tolower (c d : Char) (h : same_letter c d) : tolower c = tolower d := by
  rcases h with h | ⟨h1, h2, h3⟩ | ⟨h1, h2, h3⟩
  · rw [h]
  · exact tolower_upper c d h1 h2 h3
  · exact (tolower_upper d c h1 h2 h3).symm

theorem same_letters_tolower (l1 l2 : List Char) (h : List.Forall₂ same_letter l1 l2) :
    l1.map tolower = l2.map tolower := by
  induction h with
  | nil => rfl
  | cons hcd _ ih => simp only [List.map_cons, same_letter_tolower _ _ hcd, ih]

theorem differs_only_in_case_ci (a b : String) (h : differs_only_in_case a b) : ci_eq a b :=
  same_letters_tolower _ _ h

theorem strcasecmp_ok (k k2 : String) :
    ∃ r, strcasecmp (some k) (some k2) = .ok r ∧ (r = 0 ↔ ci_eq k k2) :=
  ⟨_, rfl, strcasecmp_chars_eq_zero_iff _ _⟩

/-! ## The search -/

theorem slot_keyed_iff (s : Option kv_item_t) :
    slot_keyed s = true ↔ ∃ k v, s = some ⟨some k, v⟩ := by
  constructor
  · intro h
    match s, h with
    | some ⟨some k, v⟩, _ => exact ⟨k, v, rfl⟩
  · rintro ⟨k, v, rfl⟩
    rfl

theorem slot_matches_some (k k2 : String) (v : Option String) :
    slot_matches k (some ⟨some k2, v⟩) ↔ ci_eq k k2 := Iff.rfl

theorem kv_find_item_loop_spec (k : String) (pre suf : List (Option kv_item_t))
    (h : ∀ s ∈ suf, slot_keyed s = true) :
    kv_find_item_loop k (pre ++ suf) suf.length pre.length
      = .ok ((first_match k suf).map (· + pre.length)) := by
  induction suf generalizing pre with
  | nil => rfl
  | cons s rest ih =>
    obtain ⟨k2, v, rfl⟩ := (slot_keyed_iff s).1 (h s (List.mem_cons_self _ _))
    have hrest : ∀ s ∈ rest, slot_keyed s = true := fun s hs => h s (List.mem_cons_of_mem _ hs)
    obtain ⟨r, hr, hr0⟩ := strcasecmp_ok k k2
    have hget : (pre ++ some ⟨some k2, v⟩ :: rest).get? pre.length = some (some ⟨some k2, v⟩) := by
      rw [List.get?_eq_getElem?, List.getElem?_append_right (le_refl _)]
      simp
    simp only [List.length_cons, kv_find_item_loop, hget, hr, first_match, slot_matches_some]
    by_cases hc : ci_eq k k2
    · simp [hr0.2 hc, hc]
    · have hne : r ≠ 0 := fun h0 => hc (hr0.1 h0)
      have := ih (pre ++ [some ⟨some k2, v⟩]) hrest
      simp only [List.append_assoc, List.singleton_append, List.length_append,
        List.length_singleton] at this
      simp only [hne, hc, if_false, this, Option.map_map]
      congr 2
      funext n
      simp only [Function.comp]
      omega

theorem kv_find_item_wf (t : kv_table_t) (k : String) (h : t.well_formed) :
    kv_find_item (some t) (some k) = .ok (first_match k t.slots) := by
  obtain ⟨name, items, count⟩ := t
  obtain ⟨hc, hk⟩ := h
  cases items with
  | none => rfl
  | some l =>
    simp only [kv_table_t.slots, Option.getD_some] at hc hk ⊢
    simp only [kv_find_item]
    by_cases h0 : count ≤ 0
    · have : l = [] := by
        apply List.eq_nil_of_length_eq_zero; omega
      simp [h0, this, first_match]
    · have := kv_find_item_loop_spec k [] l hk
      simp only [List.nil_append, List.length_nil, Nat.add_zero] at this
      have h1 : ¬ l.length ≤ 0 := by omega
      subst hc
      simp only [h1, if_false, this]
      congr 1
      cases first_match k l <;> rfl

theorem first_match_none_iff (k : String) (l : List (Option kv_item_t)) :
    first_match k l = none ↔ ∀ s ∈ l, ¬ slot_matches k s := by
  induction l with
  | nil => simp [first_match]
  | cons s rest ih =>
    by_cases h : slot_matches k s
    · simp [first_match, h]
    · simp [first_match, h, ih]

theorem first_match_some (k : String) (l : List (Option kv_item_t)) (i : Nat)
    (h : first_match k l = some i) :
    ∃ s, l.get? i = some s ∧ slot_matches k s := by
  induction l generalizing i with
  | nil => simp [first_match] at h
  | cons s rest ih =>
    by_cases hm : slot_matches k s
    · simp only [first_match, hm, if_true, Option.some.injEq] at h
      subst h
      exact ⟨s, rfl, hm⟩
    · simp only [first_match, hm, if_false, Option.map_eq_some'] at h
      obtain ⟨j, hj, rfl⟩ := h
      obtain ⟨s2, hs2, hm2⟩ := ih j hj
      exact ⟨s2, by simpa using hs2, hm2⟩

theorem first_match_keys (k : String) (l l2 : List (Option kv_item_t))
    (h : l.map slot_key = l2.map slot_key) : first_match k l = first_match k l2 := by
  induction l generalizing l2 with
  | nil =>
    cases l2 with
    | nil => rfl
    | cons _ _ => simp at h
  | cons s rest ih =>
    cases l2 with
    | nil => simp at h
    | cons s2 rest2 =>
      simp only [List.map_cons, List.cons.injEq] at h
      have hm : slot_matches k s ↔ slot_matches k s2 := by
        unfold slot_matches
        rw [h.1]
      simp only [first_match, hm, ih rest2 h.2]

theorem first_match_ci (k k2 : String) (l : List (Option kv_item_t)) (h : ci_eq k k2) :
    first_match k l = first_match k2 l := by
  have hm : ∀ s, slot_matches k s ↔ slot_matches k2 s := by
    intro s
    unfold slot_matches
    cases slot_key s with
    | none => exact Iff.rfl
    | some k3 =>
      unfold ci_eq at h ⊢
      simp only [h]
  induction l with
  | nil => rfl
  | cons s rest ih => simp only [first_match, hm s, ih]

theorem first_match_append (k : String) (l : List (Option kv_item_t)) (s : Option kv_item_t) :
    first_match k (l ++ [s]) =
      match first_match k l with
      | some i => some i
      | none => if slot_matches k s then some l.length else none := by
  induction l with
  | nil => by_cases h : slot_matches k s <;> simp [first_match, h]
  | cons s1 rest ih =>
    by_cases h1 : slot_matches k s1
    · simp [first_match, h1]
    · simp only [List.cons_append, first_match, h1, if_false, List.length_cons]
      change Option.map (fun x => x + 1) (first_match k (rest ++ [s])) = _
      rw [ih]
      cases first_match k rest with
      | some i => rfl
      | none => by_cases h : slot_matches k s <;> simp [h]

theorem set_keys (l : List (Option kv_item_t)) (i : Nat) (it : kv_item_t)
    (v : Option String) (h : l.get? i = some (some it)) :
    (l.set i (some ⟨it.key, v⟩)).map slot_key = l.map slot_key := by
  induction l generalizing i with
  | nil => rfl
  | cons s rest ih =>
    cases i with
    | zero =>
      simp only [List.get?_cons_zero, Option.some.injEq] at h
      subst h
      rfl
    | succ j =>
      simp only [List.get?_cons_succ] at h
      simp only [List.set_cons_succ, List.map_cons, ih j h]

theorem kv_item_at_slots (t : kv_table_t) (i : Nat) (it : kv_item_t)
    (h : t.slots.get? i = some (some it)) : kv_item_at t i = .ok it := by
  obtain ⟨name, items, count⟩ := t
  cases items with
  | none => simp [kv_table_t.slots] at h
  | some l =>
    simp only [kv_table_t.slots, Option.getD_some] at h
    simp only [kv_item_at, h]

theorem first_match_item (k : String) (l : List (Option kv_item_t)) (i : Nat)
    (h : first_match k l = some i) :
    ∃ it, l.get? i = some (some it) ∧ slot_matches k (some it) := by
  obtain ⟨s, hs, hm⟩ := first_match_some k l i h
  cases s with
  | none => exact absurd hm (by simp [slot_matches, slot_key])
  | some it => exact ⟨it, hs, hm⟩

/-! ## The operations on a well-formed table -/

theorem kv_get_value_wf (t : kv_table_t) (k : String) (h : t.well_formed) :
    kv_get_value (some t) (some k) =
      .ok (match first_match k t.slots with
           | none => none
           | some i =>
             match t.slots.get? i with
             | some (some it) => it.value
             | _ => none) := by
  unfold kv_get_value
  rw [kv_find_item_wf t k h]
  cases hfm : first_match k t.slots with
  | none => rfl
  | some i =>
    obtain ⟨it, hit, _⟩ := first_match_item k t.slots i hfm
    simp only [kv_item_at_slots t i it hit, hit]

theorem grow_set (l : List (Option kv_item_t)) (x : Option kv_item_t) :
    (l.take (l.length + 1) ++ List.replicate (l.length + 1 - l.length) none).set l.length x
      = l ++ [x] := by
  have h1 : l.length + 1 - l.length = 1 := by omega
  rw [List.take_of_length_le (Nat.le_succ _), h1]
  simp

theorem kv_add_item_new (a : alloc_t) (t : kv_table_t) (k : String) (v : Option String)
    (hwf : t.well_formed) (hk : strlen k ≠ 0) (hf : first_match k t.slots = none)
    (hi : a.item = true) (hl : a.list = true) :
    kv_add_item a (some t) (some k) v =
      .ok (some ⟨t.name,
        some (t.slots ++ [some ⟨X_STRDUP a.key k, v.bind (X_STRDUP a.value)⟩]),
        t.count + 1⟩) := by
  have hv : (match v with
      | some v => X_STRDUP a.value v
      | none => none) = v.bind (X_STRDUP a.value) := by cases v <;> rfl
  simp only [kv_add_item, hk, if_false, kv_find_item_wf t k hwf, hf, X_MALLOC, hi, X_REALLOC,
    hl, if_true, hv]
  have hc := hwf.1
  unfold kv_table_t.slots at hc ⊢
  rw [hc, grow_set]

theorem kv_add_item_new_fail (a : alloc_t) (t : kv_table_t) (k : String) (v : Option String)
    (hwf : t.well_formed) (hf : first_match k t.slots = none)
    (ha : a.item = false ∨ a.list = false) :
    kv_add_item a (some t) (some k) v = .ok (some t) := by
  by_cases hk : strlen k = 0
  · simp only [kv_add_item, hk, if_true]
  · simp only [kv_add_item, hk, if_false, kv_find_item_wf t k hwf, hf, X_MALLOC, X_REALLOC]
    rcases ha with ha | ha
    · simp [ha]
    · cases a.item <;> simp [ha]

theorem kv_add_item_existing (a : alloc_t) (t : kv_table_t) (k : String) (v : Option String)
    (hwf : t.well_formed) (hk : strlen k ≠ 0) (i : Nat) (it : kv_item_t)
    (hf : first_match k t.slots = some i) (hit : t.slots.get? i = some (some it)) :
    kv_add_item a (some t) (some k) v =
      .ok (some ⟨t.name, some (t.slots.set i (some ⟨it.key, v.bind (X_STRDUP a.value)⟩)),
        t.count⟩) := by
  have hv : (match v with
      | some v => X_STRDUP a.value v
      | none => none) = v.bind (X_STRDUP a.value) := by cases v <;> rfl
  simp only [kv_add_item, hk, if_false, kv_find_item_wf t k hwf, hf,
    kv_item_at_slots t i it hit, hv]
  rfl

theorem well_formed_new (t : kv_table_t) (k : String) (v : Option String)
    (hwf : t.well_formed) :
    (⟨t.name, some (t.slots ++ [some ⟨some k, v⟩]), t.count + 1⟩ : kv_table_t).well_formed := by
  obtain ⟨hc, hs⟩ := hwf
  refine ⟨by simp [kv_table_t.slots, hc], ?_⟩
  intro s hs2
  simp only [kv_table_t.slots, Option.getD_some] at hs2
  rcases List.mem_append.1 hs2 with h1 | h1
  · exact hs s h1
  · simp only [List.mem_singleton] at h1
    subst h1
    rfl

theorem well_formed_set (t : kv_table_t) (i : Nat) (it : kv_item_t) (v : Option String)
    (hwf : t.well_formed) (hit : t.slots.get? i = some (some it)) :
    (⟨t.name, some (t.slots.set i (some ⟨it.key, v⟩)), t.count⟩ : kv_table_t).well_formed := by
  obtain ⟨hc, hs⟩ := hwf
  refine ⟨by simp [kv_table_t.slots, hc], ?_⟩
  intro s hs2
  simp only [kv_table_t.slots, Option.getD_some] at hs2
  rcases List.mem_or_eq_of_mem_set hs2 with h1 | h1
  · exact hs s h1
  · subst h1
    exact hs (some it) (List.get?_mem hit)

/-- One call of `kv_add_item` with a non-empty key on a well-formed table when every
allocation succeeds: either the key is new and a slot is appended, or the first matching
item gets the new value. -/
theorem kv_add_item_ok_spec (t : kv_table_t) (k : String) (v : Option String)
    (hwf : t.well_formed) (hk : strlen k ≠ 0) :
    ∃ t2, kv_add_item alloc_ok (some t) (some k) v = .ok (some t2) ∧ t2.well_formed ∧
      t2.name = t.name ∧
      ((first_match k t.slots = none ∧ t2.slots = t.slots ++ [some ⟨some k, v⟩] ∧
          t2.count = t.count + 1) ∨
       (∃ i it, first_match k t.slots = some i ∧ t.slots.get? i = some (some it) ∧
          slot_matches k (some it) ∧ t2.slots = t.slots.set i (some ⟨it.key, v⟩) ∧
          t2.count = t.count)) := by
  have hv : v.bind (X_STRDUP alloc_ok.value) = v := by cases v <;> rfl
  cases hf : first_match k t.slots with
  | none =>
    refine ⟨_, kv_add_item_new alloc_ok t k v hwf hk hf rfl rfl, ?_, rfl, Or.inl ⟨rfl, ?_, rfl⟩⟩
    · rw [hv]
      exact well_formed_new t k v hwf
    · rw [hv]
      rfl
  | some i =>
    obtain ⟨it, hit, hm⟩ := first_match_item k t.slots i hf
    refine ⟨_, kv_add_item_existing alloc_ok t k v hwf hk i it hf hit, ?_, rfl,
      Or.inr ⟨i, it, rfl, hit, hm, ?_, rfl⟩⟩
    · rw [hv]
      exact well_formed_set t i it v hwf hit
    · rw [hv]
      rfl

theorem slot_matches_refl (k : String) (v : Option String) :
    slot_matches k (some ⟨some k, v⟩) := by
  simp [slot_matches, slot_key, ci_eq]

theorem get?_set_self (l : List (Option kv_item_t)) (i : Nat) (x s : Option kv_item_t)
    (h : l.get? i = some s) : (l.set i x).get? i = some x := by
  have hlt : i < l.length := by
    by_contra hge
    rw [List.get?_eq_none.2 (by omega)] at h
    cases h
  rw [List.get?_eq_getElem?, List.getElem?_set_self hlt]

/-- After a successful `kv_add_item` of `k` the lookup of any key equal to `k` up to
letter case gives the value just stored. -/
theorem kv_add_then_get (t : kv_table_t) (k k2 : String) (v : Option String)
    (hwf : t.well_formed) (hk : strlen k ≠ 0) (hci : ci_eq k k2) :
    ∃ t2, kv_add_item alloc_ok (some t) (some k) v = .ok (some t2) ∧ t2.well_formed ∧
      kv_get_value (some t2) (some k2) = .ok v ∧
      (first_match k t.slots = none → t2.count = t.count + 1) ∧
      (first_match k t.slots ≠ none → t2.count = t.count) ∧
      first_match k t2.slots ≠ none := by
  obtain ⟨t2, hadd, hwf2, _, hcase⟩ := kv_add_item_ok_spec t k v hwf hk
  refine ⟨t2, hadd, hwf2, ?_⟩
  rw [kv_get_value_wf t2 k2 hwf2, ← first_match_ci k k2 _ hci]
  rcases hcase with ⟨hf, hs, hc⟩ | ⟨i, it, hf, hit, hm, hs, hc⟩
  · have h2 : first_match k t2.slots = some t.slots.length := by
      rw [hs, first_match_append, hf]
      simp [slot_matches_refl]
    have hget : t2.slots.get? t.slots.length = some (some ⟨some k, v⟩) := by
      rw [hs, List.get?_eq_getElem?, List.getElem?_append_right (le_refl _)]
      simp
    refine ⟨?_, fun _ => hc, fun h => absurd hf h, by simp [h2]⟩
    simp only [h2, hget]
  · have h2 : first_match k t2.slots = some i := by
      rw [hs, first_match_keys k _ t.slots (set_keys t.slots i it v hit), hf]
    have hget : t2.slots.get? i = some (some ⟨it.key, v⟩) := by
      rw [hs]
      exact get?_set_self _ _ _ _ hit
    refine ⟨?_, fun h => by simp [hf] at h, fun _ => hc, by simp [h2]⟩
    simp only [h2, hget]

/-! ## The invariant on keys -/

theorem ci_eq_symm {a b : String} (h : ci_eq a b) : ci_eq b a := Eq.symm h

theorem ci_eq_trans {a b c : String} (h1 : ci_eq a b) (h2 : ci_eq b c) : ci_eq a c :=
  Eq.trans h1 h2

theorem no_duplicate_keys_iff (l : List (Option kv_item_t)) :
    l.Pairwise (fun s1 s2 => ¬ slots_ci_eq s1 s2) ↔
      (l.map slot_key).Pairwise (fun a b => ¬ (match a, b with
        | some a, some b => ci_eq a b
        | _, _ => False)) := by
  rw [List.pairwise_map]
  rfl

theorem no_duplicate_keys_append (l : List (Option kv_item_t)) (k : String)
    (key value : Option String) (hkey : key = some k ∨ key = none)
    (hnd : l.Pairwise (fun s1 s2 => ¬ slots_ci_eq s1 s2))
    (hf : first_match k l = none) :
    (l ++ [some (⟨key, value⟩ : kv_item_t)]).Pairwise (fun s1 s2 => ¬ slots_ci_eq s1 s2) := by
  rw [List.pairwise_append]
  refine ⟨hnd, List.pairwise_singleton _ _, ?_⟩
  intro s hs x hx
  simp only [List.mem_singleton] at hx
  subst hx
  have hm := (first_match_none_iff k l).1 hf s hs
  rcases hkey with rfl | rfl
  · intro hci
    apply hm
    change (match slot_key s, some k with
      | some a, some b => ci_eq a b
      | _, _ => False) at hci
    unfold slot_matches
    cases hsk : slot_key s with
    | none => simp [hsk] at hci
    | some k2 =>
      rw [hsk] at hci
      exact ci_eq_symm hci
  · intro hci
    unfold slots_ci_eq at hci
    cases hsk : slot_key s <;> simp [hsk, slot_key] at hci

/-- One call of `kv_add_item`, whatever its arguments and allocation outcomes, on a
well-formed table without duplicate keys returns a table without duplicate keys, whose
`count` is still its number of slots. -/
theorem kv_add_item_no_duplicate_keys (a : alloc_t) (t : kv_table_t) (k v : Option String)
    (hwf : t.well_formed) (hnd : t.no_duplicate_keys) :
    ∃ t2, kv_add_item a (some t) k v = .ok (some t2) ∧ t2.no_duplicate_keys ∧
      t2.count = t2.slots.length := by
  cases k with
  | none => exact ⟨t, rfl, hnd, hwf.1⟩
  | some k =>
    by_cases hk : strlen k = 0
    · exact ⟨t, by simp only [kv_add_item, hk, if_true], hnd, hwf.1⟩
    · cases hf : first_match k t.slots with
      | none =>
        by_cases ha : a.item = true ∧ a.list = true
        · refine ⟨_, kv_add_item_new a t k v hwf hk hf ha.1 ha.2, ?_, ?_⟩
          · apply no_duplicate_keys_append t.slots k _ _ _ hnd hf
            unfold X_STRDUP
            cases a.key <;> simp
          · simp [kv_table_t.slots, hwf.1]
        · refine ⟨t, kv_add_item_new_fail a t k v hwf hf ?_, hnd, hwf.1⟩
          cases hi : a.item <;> cases hl : a.list <;> simp [hi, hl] at ha ⊢
      | some i =>
        obtain ⟨it, hit, _⟩ := first_match_item k t.slots i hf
        refine ⟨_, kv_add_item_existing a t k v hwf hk i it hf hit, ?_, ?_⟩
        · have hkeys := set_keys t.slots i it (v.bind (X_STRDUP a.value)) hit
          unfold kv_table_t.no_duplicate_keys at hnd ⊢
          rw [no_duplicate_keys_iff] at hnd ⊢
          simp only [kv_table_t.slots, Option.getD_some] at hkeys hnd ⊢
          rw [hkeys]
          exact hnd
        · simp [kv_table_t.slots, hwf.1]

/-- One call of `kv_add_item` with every allocation succeeding keeps a table
well-formed. -/
theorem kv_add_item_ok_well_formed (t : kv_table_t) (k v : Option String)
    (hwf : t.well_formed) :
    ∃ t2, kv_add_item alloc_ok (some t) k v = .ok (some t2) ∧ t2.well_formed := by
  cases k with
  | none => exact ⟨t, rfl, hwf⟩
  | some k =>
    by_cases hk : strlen k = 0
    · exact ⟨t, by simp only [kv_add_item, hk, if_true], hwf⟩
    · obtain ⟨t2, h, hwf2, _⟩ := kv_add_item_ok_spec t k v hwf hk
      exact ⟨t2, h, hwf2⟩

theorem kv_add_items_no_duplicate_keys (calls : List (Option String × Option String))
    (t : kv_table_t) (hwf : t.well_formed) (hnd : t.no_duplicate_keys) :
    ∃ t2, kv_add_items (some t) (all_succeed calls) = .ok (some t2) ∧ t2.well_formed ∧
      t2.no_duplicate_keys := by
  induction calls generalizing t with
  | nil => exact ⟨t, rfl, hwf, hnd⟩
  | cons c rest ih =>
    obtain ⟨t1, h1, hwf1⟩ := kv_add_item_ok_well_formed t c.1 c.2 hwf
    obtain ⟨t1b, h1b, hnd1, _⟩ := kv_add_item_no_duplicate_keys alloc_ok t c.1 c.2 hwf hnd
    have : t1b = t1 := by
      rw [h1] at h1b
      injection h1b with h
      injection h with h
      exact h.symm
    subst this
    obtain ⟨t2, h2, hwf2, hnd2⟩ := ih t1b hwf1 hnd1
    refine ⟨t2, ?_, hwf2, hnd2⟩
    simp only [all_succeed, List.map_cons, kv_add_items, h1]
    exact h2

theorem kv_table_create_eq (ok_name : Bool) (name : Option String) :
    ∃ n, kv_table_create true ok_name name = some ⟨n, none, 0⟩ := ⟨_, rfl⟩

/-! ## The invariant on keys under every allocation outcome -/

theorem kv_find_item_loop_none (k : String) (pre suf : List (Option kv_item_t))
    (h : kv_find_item_loop k (pre ++ suf) suf.length pre.length = .ok none) :
    ∀ s ∈ suf, slot_keyed s = true := by
  induction suf generalizing pre with
  | nil => simp
  | cons s rest ih =>
    have hget : (pre ++ s :: rest).get? pre.length = some s := by
      rw [List.get?_eq_getElem?, List.getElem?_append_right (le_refl _)]
      simp
    simp only [List.length_cons, kv_find_item_loop, hget] at h
    cases s with
    | none => simp at h
    | some it =>
      obtain ⟨key, value⟩ := it
      cases key with
      | none => simp [strcasecmp] at h
      | some k2 =>
        obtain ⟨r, hr, _⟩ := strcasecmp_ok k k2
        simp only [hr] at h
        by_cases h0 : r = 0
        · simp [h0] at h
        · simp only [h0, if_false] at h
          have h2 := ih (pre ++ [some ⟨some k2, value⟩])
            (by simpa only [List.append_assoc, List.singleton_append, List.length_append,
              List.length_singleton] using h)
          intro s hs
          rcases List.mem_cons.1 hs with rfl | hs
          · rfl
          · exact h2 s hs

/-- A search that ends without a match and without an undefined access has compared the
key with the key of every slot: the table is well-formed. -/
theorem kv_find_item_none_well_formed (t : kv_table_t) (k : String)
    (hc : t.count = t.slots.length) (h : kv_find_item (some t) (some k) = .ok none) :
    t.well_formed := by
  refine ⟨hc, ?_⟩
  obtain ⟨name, items, count⟩ := t
  cases items with
  | none => simp [kv_table_t.slots]
  | some l =>
    simp only [kv_table_t.slots, Option.getD_some] at hc ⊢
    subst hc
    simp only [kv_find_item] at h
    by_cases h0 : l.length ≤ 0
    · have : l = [] := List.eq_nil_of_length_eq_zero (by omega)
      simp [this]
    · simp only [h0, if_false] at h
      exact kv_find_item_loop_none k [] l h

theorem kv_item_at_ok (t : kv_table_t) (i : Nat) (it : kv_item_t)
    (h : kv_item_at t i = .ok it) : t.slots.get? i = some (some it) := by
  obtain ⟨name, items, count⟩ := t
  cases items with
  | none => simp [kv_item_at] at h
  | some l =>
    simp only [kv_item_at] at h
    simp only [kv_table_t.slots, Option.getD_some, List.get?_eq_getElem?]
    cases hg : l[i]? with
    | none => simp [hg] at h
    | some s =>
      cases s with
      | none => simp [hg] at h
      | some it2 =>
        rw [List.get?_eq_getElem?, hg] at h
        injection h with h
        rw [h]

/-- One call of `kv_add_item` that returns, whatever its arguments and allocation outcomes,
on a table without duplicate keys whose `count` is its number of slots, returns such a
table. -/
theorem kv_add_item_keeps_invariant (a : alloc_t) (t : kv_table_t) (k v : Option String)
    (r : Option kv_table_t) (hc : t.count = t.slots.length) (hnd : t.no_duplicate_keys)
    (h : kv_add_item a (some t) k v = .ok r) :
    ∃ t2, r = some t2 ∧ t2.no_duplicate_keys ∧ t2.count = t2.slots.length := by
  cases k with
  | none =>
    simp only [kv_add_item, Except.ok.injEq] at h
    exact ⟨t, h.symm, hnd, hc⟩
  | some k =>
    by_cases hk : strlen k = 0
    · simp only [kv_add_item, hk, if_true, Except.ok.injEq] at h
      exact ⟨t, h.symm, hnd, hc⟩
    · cases hfind : kv_find_item (some t) (some k) with
      | error f => simp [kv_add_item, hk, hfind] at h
      | ok found =>
        cases found with
        | none =>
          have hwf := kv_find_item_none_well_formed t k hc hfind
          obtain ⟨t2, h2, hnd2, hc2⟩ := kv_add_item_no_duplicate_keys a t (some k) v hwf hnd
          rw [h2] at h
          injection h with h
          exact ⟨t2, h.symm, hnd2, hc2⟩
        | some i =>
          cases hat : kv_item_at t i with
          | error f => simp [kv_add_item, hk, hfind, hat] at h
          | ok it =>
            simp only [kv_add_item, hk, if_false, hfind, hat, Except.ok.injEq] at h
            have hit := kv_item_at_ok t i it hat
            have hkeys := fun x => set_keys t.slots i it x hit
            refine ⟨_, h.symm, ?_, ?_⟩
            · unfold kv_table_t.no_duplicate_keys at hnd ⊢
              rw [no_duplicate_keys_iff] at hnd ⊢
              simp only [kv_table_t.slots, Option.getD_some] at hkeys hnd ⊢
              rw [hkeys]
              exact hnd
            · simp [kv_table_t.slots, hc]

/-- Every table reached by a sequence of `kv_add_item` calls that return, whatever their
allocation outcomes, from a table without duplicate keys has no duplicate keys. -/
theorem kv_add_items_keeps_invariant (ops : List (alloc_t × Option String × Option String))
    (t t2 : kv_table_t) (hc : t.count = t.slots.length) (hnd : t.no_duplicate_keys)
    (h : kv_add_items (some t) ops = .ok (some t2)) : t2.no_duplicate_keys := by
  induction ops generalizing t with
  | nil =>
    simp only [kv_add_items, Except.ok.injEq, Option.some.injEq] at h
    rw [← h]
    exact hnd
  | cons op rest ih =>
    obtain ⟨a, k, v⟩ := op
    simp only [kv_add_items] at h
    cases hadd : kv_add_item a (some t) k v with
    | error f => simp [hadd] at h
    | ok r =>
      obtain ⟨t1, rfl, hnd1, hc1⟩ := kv_add_item_keeps_invariant a t k v r hc hnd hadd
      simp only [hadd] at h
      exact ih t1 hc1 hnd1 h

/-! ## Sequences of puts -/

theorem first_keys_subset (ks : List String) : ∀ k ∈ first_keys ks, k ∈ ks := by
  induction ks with
  | nil => simp [first_keys]
  | cons k0 rest ih =>
    intro k hk
    simp only [first_keys, List.mem_cons, List.mem_filter] at hk
    rcases hk with rfl | ⟨hk, _⟩
    · exact List.mem_cons_self _ _
    · exact List.mem_cons_of_mem _ (ih k hk)

theorem first_keys_covers (ks : List String) (k : String) (h : ∃ k0 ∈ ks, ci_eq k0 k) :
    ∃ k0 ∈ first_keys ks, ci_eq k0 k := by
  induction ks with
  | nil => simp at h
  | cons k1 rest ih =>
    obtain ⟨k0, hk0, hci⟩ := h
    rcases List.mem_cons.1 hk0 with rfl | hmem
    · exact ⟨k0, by simp [first_keys], hci⟩
    · obtain ⟨k2, hk2, hci2⟩ := ih ⟨k0, hmem, hci⟩
      by_cases h12 : ci_eq k1 k2
      · exact ⟨k1, by simp [first_keys], ci_eq_trans h12 hci2⟩
      · exact ⟨k2, by simp [first_keys, hk2, h12], hci2⟩

theorem first_keys_pairwise (ks : List String) :
    (first_keys ks).Pairwise (fun a b => ¬ ci_eq a b) := by
  induction ks with
  | nil => exact List.Pairwise.nil
  | cons k rest ih =>
    simp only [first_keys, List.pairwise_cons]
    refine ⟨?_, ih.sublist (List.filter_sublist _)⟩
    intro b hb
    simpa using (List.mem_filter.1 hb).2

theorem first_keys_append (ks : List String) (k : String) :
    first_keys (ks ++ [k]) =
      if ∃ k0 ∈ ks, ci_eq k0 k then first_keys ks else first_keys ks ++ [k] := by
  induction ks with
  | nil => simp [first_keys]
  | cons k1 rest ih =>
    rw [List.cons_append]
    simp only [first_keys]
    rw [ih]
    by_cases h1 : ci_eq k1 k
    · by_cases hr : ∃ k0 ∈ rest, ci_eq k0 k
      · simp [h1, hr]
      · simp [h1, hr, List.filter_append]
    · by_cases hr : ∃ k0 ∈ rest, ci_eq k0 k
      · have : ∃ k0, (k0 = k1 ∨ k0 ∈ rest) ∧ ci_eq k0 k := by
          obtain ⟨k0, hk0, hci⟩ := hr
          exact ⟨k0, Or.inr hk0, hci⟩
        simp [hr, this]
      · have : ¬ ∃ k0, (k0 = k1 ∨ k0 ∈ rest) ∧ ci_eq k0 k := by
          rintro ⟨k0, rfl | hk0, hci⟩
          · exact h1 hci
          · exact hr ⟨k0, hk0, hci⟩
        simp [h1, hr, this, List.filter_append]

theorem last_value_append (puts : List (String × Option String)) (k : String)
    (v : Option String) (k2 : String) :
    last_value (puts ++ [(k, v)]) k2 = if ci_eq k k2 then v else last_value puts k2 := by
  simp only [last_value, List.reverse_append, List.reverse_singleton, List.singleton_append,
    List.find?_cons]
  by_cases h : ci_eq k k2 <;> simp [h]

theorem slot_matches_both (k : String) (s1 s2 : Option kv_item_t)
    (h1 : slot_matches k s1) (h2 : slot_matches k s2) : slots_ci_eq s1 s2 := by
  unfold slot_matches at h1 h2
  unfold slots_ci_eq
  cases hk1 : slot_key s1 with
  | none => simp [hk1] at h1
  | some a =>
    cases hk2 : slot_key s2 with
    | none => simp [hk2] at h2
    | some b =>
      rw [hk1] at h1
      rw [hk2] at h2
      exact ci_eq_trans (ci_eq_symm h1) h2

theorem set_first_match (k : String) (v : Option String) (l : List (Option kv_item_t))
    (i : Nat) (it : kv_item_t) (hnd : l.Pairwise (fun s1 s2 => ¬ slots_ci_eq s1 s2))
    (hf : first_match k l = some i) (hit : l.get? i = some (some it)) :
    l.set i (some ⟨it.key, v⟩) =
      l.map (fun s => if slot_matches k s then s.map (fun x => ⟨x.key, v⟩) else s) := by
  induction l generalizing i with
  | nil => simp [first_match] at hf
  | cons s rest ih =>
    obtain ⟨hs, hrest⟩ := List.pairwise_cons.1 hnd
    by_cases hm : slot_matches k s
    · simp only [first_match, hm, if_true, Option.some.injEq] at hf
      subst hf
      simp only [List.get?_cons_zero, Option.some.injEq] at hit
      subst hit
      have hid : rest.map (fun s => if slot_matches k s
          then s.map (fun x => (⟨x.key, v⟩ : kv_item_t)) else s) = rest := by
        conv_rhs => rw [← List.map_id rest]
        apply List.map_congr_left
        intro s2 hs2
        have : ¬ slot_matches k s2 := fun h2 => hs s2 hs2 (slot_matches_both k _ _ hm h2)
        simp [this]
      simp only [List.set_cons_zero, List.map_cons, hm, if_true, Option.map_some', hid]
    · simp only [first_match, hm, if_false, Option.map_eq_some'] at hf
      obtain ⟨j, hj, rfl⟩ := hf
      simp only [List.get?_cons_succ] at hit
      simp only [List.set_cons_succ, List.map_cons, hm, if_false, ih j hrest hj hit]

theorem kv_add_items_append (t : Option kv_table_t)
    (xs ys : List (alloc_t × Option String × Option String)) :
    kv_add_items t (xs ++ ys) =
      match kv_add_items t xs with
      | .error f => .error f
      | .ok t2 => kv_add_items t2 ys := by
  induction xs generalizing t with
  | nil => rfl
  | cons x rest ih =>
    obtain ⟨a, k, v⟩ := x
    simp only [List.cons_append, kv_add_items]
    cases kv_add_item a t k v with
    | error f => rfl
    | ok t2 => exact ih t2

/-- One effective put on a table whose slots hold the distinct keys of `ks`. -/
theorem kv_add_item_first_keys (t : kv_table_t) (ks : List String)
    (lv : String → Option String) (k : String) (v : Option String)
    (hwf : t.well_formed) (hk : strlen k ≠ 0)
    (hs : t.slots = (first_keys ks).map (fun k2 => some ⟨some k2, lv k2⟩)) :
    ∃ t2, kv_add_item alloc_ok (some t) (some k) v = .ok (some t2) ∧ t2.well_formed ∧
      t2.slots = (first_keys (ks ++ [k])).map
        (fun k2 => some ⟨some k2, if ci_eq k k2 then v else lv k2⟩) := by
  obtain ⟨t2, hadd, hwf2, _, hcase⟩ := kv_add_item_ok_spec t k v hwf hk
  refine ⟨t2, hadd, hwf2, ?_⟩
  rcases hcase with ⟨hf, hs2, _⟩ | ⟨i, it, hf, hit, hm, hs2, _⟩
  · have hno : ∀ k2 ∈ first_keys ks, ¬ ci_eq k k2 := by
      intro k2 hk2
      exact (first_match_none_iff k t.slots).1 hf (some ⟨some k2, lv k2⟩)
        (by rw [hs]; exact List.mem_map_of_mem _ hk2)
    have hnot : ¬ ∃ k0 ∈ ks, ci_eq k0 k := by
      intro h
      obtain ⟨k0, hk0, hci⟩ := first_keys_covers ks k h
      exact hno k0 hk0 (ci_eq_symm hci)
    have hkk : ci_eq k k := rfl
    rw [hs2, first_keys_append, if_neg hnot, List.map_append, hs]
    congr 1
    · apply List.map_congr_left
      intro k2 hk2
      simp [hno k2 hk2]
    · simp [hkk]
  · have hex : ∃ k0 ∈ ks, ci_eq k0 k := by
      have hmem : some it ∈ t.slots := List.get?_mem hit
      rw [hs] at hmem
      obtain ⟨k2, hk2, he⟩ := List.mem_map.1 hmem
      injection he with he
      subst he
      exact ⟨k2, first_keys_subset ks k2 hk2, ci_eq_symm hm⟩
    have hnd : t.slots.Pairwise (fun s1 s2 => ¬ slots_ci_eq s1 s2) := by
      rw [hs, List.pairwise_map]
      exact first_keys_pairwise ks
    rw [hs2, first_keys_append, if_pos hex, set_first_match k v t.slots i it hnd hf hit, hs,
      List.map_map]
    apply List.map_congr_left
    intro k2 _
    have hiff : slot_matches k (some ⟨some k2, lv k2⟩) ↔ ci_eq k k2 := Iff.rfl
    by_cases h : ci_eq k k2 <;> simp [Function.comp, hiff, h]

/-- The table after a sequence of puts, every allocation succeeding, on an empty table:
its slots hold the distinct keys in the order of their first put, each with the value of
its last put. -/
theorem kv_add_items_spec (n : Option String) (calls : List (Option String × Option String)) :
    ∃ t, kv_add_items (some ⟨n, none, 0⟩) (all_succeed calls) = .ok (some t) ∧
      t.well_formed ∧
      t.slots = (first_keys ((effective_puts calls).map Prod.fst)).map
        (fun k => some ⟨some k, last_value (effective_puts calls) k⟩) := by
  induction calls using List.reverseRecOn with
  | nil => exact ⟨_, rfl, ⟨rfl, by simp [kv_table_t.slots]⟩, rfl⟩
  | append_singleton rest c ih =>
    obtain ⟨t, hrun, hwf, hs⟩ := ih
    obtain ⟨ck, cv⟩ := c
    have hrun2 : ∀ r, kv_add_item alloc_ok (some t) ck cv = .ok r →
        kv_add_items (some ⟨n, none, 0⟩) (all_succeed (rest ++ [(ck, cv)])) = .ok r := by
      intro r hr
      simp only [all_succeed, List.map_append, List.map_cons, List.map_nil] at hrun ⊢
      rw [kv_add_items_append, hrun]
      simp only [kv_add_items, hr]
    have hskip : ∀ (hnone : (match ck with
          | some k => if k.length = 0 then none else some (k, cv)
          | none => none) = none), effective_puts (rest ++ [(ck, cv)]) = effective_puts rest := by
      intro hnone
      simp only [effective_puts, List.filterMap_append, List.filterMap_cons, hnone,
        List.filterMap_nil, List.append_nil]
    cases ck with
    | none =>
      refine ⟨t, hrun2 _ rfl, hwf, ?_⟩
      rw [hskip rfl]
      exact hs
    | some k =>
      by_cases hk : k.length = 0
      · refine ⟨t, hrun2 _ (by simp only [kv_add_item, strlen, hk, if_true]), hwf, ?_⟩
        rw [hskip (by simp only [hk, if_true])]
        exact hs
      · obtain ⟨t2, hadd, hwf2, hs2⟩ := kv_add_item_first_keys t _ _ k cv hwf hk hs
        refine ⟨t2, hrun2 _ hadd, hwf2, ?_⟩
        have heff : effective_puts (rest ++ [(some k, cv)]) = effective_puts rest ++ [(k, cv)] := by
          simp only [effective_puts, List.filterMap_append, List.filterMap_cons, hk, if_false,
            List.filterMap_nil]
        rw [hs2, heff, List.map_append]
        apply List.map_congr_left
        intro k2 _
        rw [last_value_append]

theorem kv_iterate_wf (t : kv_table_t) (hwf : t.well_formed) :
    kv_iterate (some t) = t.slots.map (fun s =>
      match s with
      | some it => .ok (it.key, it.value)
      | none => .error .null_deref) := by
  obtain ⟨hc, hk⟩ := hwf
  apply List.ext_getElem
  · simp [kv_iterate, kv_item_count, hc]
  · intro i h1 h2
    simp only [List.length_map] at h2
    have hget : t.slots.get? i = some t.slots[i] := by
      rw [List.get?_eq_getElem?, List.getElem?_eq_getElem h2]
    obtain ⟨k, v, hkv⟩ := (slot_keyed_iff _).1 (hk _ (List.getElem_mem h2))
    rw [hkv] at hget
    have hle : ¬ i > t.count := by omega
    simp only [kv_iterate, List.getElem_map, List.getElem_range, kv_get_item_by_index, hle,
      if_false, kv_item_at_slots t i _ hget, hkv]

theorem first_keys_length (ks : List String) :
    (first_keys ks).length = ((ks.map (fun k => k.toList.map tolower)).toFinset).card := by
  induction ks using List.reverseRecOn with
  | nil => rfl
  | append_singleton rest k ih =>
    have hiff : (∃ k0 ∈ rest, ci_eq k0 k) ↔
        k.toList.map tolower ∈ (rest.map (fun k => k.toList.map tolower)).toFinset := by
      simp only [List.mem_toFinset, List.mem_map, ci_eq]
    have hset : ((rest ++ [k]).map (fun k => k.toList.map tolower)).toFinset =
        insert (k.toList.map tolower) (rest.map (fun k => k.toList.map tolower)).toFinset := by
      ext x
      simp only [List.map_append, List.map_singleton, List.toFinset_append, Finset.mem_union,
        List.mem_toFinset, List.mem_singleton, Finset.mem_insert]
      tauto
    rw [first_keys_append, hset]
    by_cases h : ∃ k0 ∈ rest, ci_eq k0 k
    · rw [if_pos h, Finset.insert_eq_of_mem (hiff.1 h), ih]
    · rw [if_neg h, Finset.card_insert_of_not_mem (fun hm => h (hiff.2 hm)), List.length_append,
        ih]
      rfl

/-! ## Destruction and the lock -/

theorem kv_table_destroy_loop_ok (n : Nat) (l : List (Option kv_item_t)) (i : Nat)
    (h : i + n ≤ l.length) :
    ∃ ev l2, kv_table_destroy_loop l n i = (ev, .ok l2) ∧ ∀ e ∈ ev, e = Event.access := by
  induction n generalizing l i with
  | zero => exact ⟨[.access], l, rfl, by simp⟩
  | succ n ih =>
    have hlt : i < l.length := by omega
    have hget : l.get? i = some l[i] := by
      rw [List.get?_eq_getElem?, List.getElem?_eq_getElem hlt]
    cases hs : l[i] with
    | none =>
      obtain ⟨ev, l2, hr, hev⟩ := ih l (i + 1) (by omega)
      refine ⟨.access :: .access :: ev, l2, ?_, ?_⟩
      · simp only [kv_table_destroy_loop, hget, hs, hr]
      · intro e he
        simp only [List.mem_cons] at he
        rcases he with rfl | rfl | he
        · rfl
        · rfl
        · exact hev e he
    | some it =>
      obtain ⟨ev, l2, hr, hev⟩ := ih (l.set i none) (i + 1) (by simp; omega)
      refine ⟨.access :: .access :: .access :: ev, l2, ?_, ?_⟩
      · simp only [kv_table_destroy_loop, hget, hs, hr]
      · intro e he
        simp only [List.mem_cons] at he
        rcases he with rfl | rfl | rfl | he
        · rfl
        · rfl
        · rfl
        · exact hev e he

/-- On a table whose `count` is its number of slots `kv_table_destroy` runs to its end:
the lock is taken first, then come accesses only, then the unlock and the destruction of
the lock; the handle is null afterwards. -/
theorem kv_table_destroy_run_spec (t : kv_table_t) (hc : t.count = t.slots.length) :
    ∃ mid, kv_table_destroy_run (some (some t))
        = ([.lock] ++ mid ++ [.unlock, .lock_destroy], .ok (some none)) ∧
      ∀ e ∈ mid, e = Event.access := by
  obtain ⟨name, items, count⟩ := t
  cases items with
  | none => exact ⟨[.access], rfl, by simp⟩
  | some l =>
    simp only [kv_table_t.slots, Option.getD_some] at hc
    subst hc
    by_cases h0 : l.length ≤ 0
    · refine ⟨[.access, .access], ?_, by simp⟩
      simp only [kv_table_destroy_run, h0, if_true, kv_table_lock, kv_table_unlock]
      rfl
    · obtain ⟨ev, l2, hr, hev⟩ := kv_table_destroy_loop_ok l.length l 0 (by omega)
      refine ⟨[.access, .access] ++ ev ++ [.access, .access, .access], ?_, ?_⟩
      · simp only [kv_table_destroy_run, h0, if_false, kv_table_lock, kv_table_unlock, hr]
        simp
      · intro e he
        simp only [List.mem_append, List.mem_cons, List.mem_singleton, List.not_mem_nil,
          or_false] at he
        rcases he with (((rfl | rfl) | he) | (rfl | rfl | rfl))
        · rfl
        · rfl
        · exact hev e he
        · rfl
        · rfl
        · rfl

theorem lock_disciplined_from_accesses (mid rest : List Event)
    (h : ∀ e ∈ mid, e = Event.access) :
    lock_disciplined_from true (mid ++ rest) = lock_disciplined_from true rest := by
  induction mid with
  | nil => rfl
  | cons e mid ih =>
    have he : e = Event.access := h e (List.mem_cons_self _ _)
    subst he
    simp only [List.cons_append, lock_disciplined_from, Bool.true_and]
    exact ih (fun e he => h e (List.mem_cons_of_mem _ he))

theorem kv_find_item_events_undisciplined (t : kv_table_t) (k : String) :
    lock_disciplined (kv_find_item_events (some t) (some k)) = false := by
  simp only [kv_find_item_events, lock_disciplined, lock_disciplined_from, Bool.false_and]

/-! ## One put and the other items -/

theorem get?_lt_length (l : List (Option kv_item_t)) (i : Nat) (s : Option kv_item_t)
    (h : l.get? i = some s) : i < l.length := by
  by_contra hge
  rw [List.get?_eq_none.2 (by omega)] at h
  cases h

theorem get?_append_left (l : List (Option kv_item_t)) (x s : Option kv_item_t) (i : Nat)
    (h : l.get? i = some s) : (l ++ [x]).get? i = some s := by
  have hlt := get?_lt_length l i s h
  rw [List.get?_eq_getElem?] at h ⊢
  rw [List.getElem?_append_left hlt]
  exact h

theorem get?_set_other (l : List (Option kv_item_t)) (x : Option kv_item_t) (i j : Nat)
    (h : i ≠ j) : (l.set i x).get? j = l.get? j := by
  rw [List.get?_eq_getElem?, List.get?_eq_getElem?, List.getElem?_set_ne h]

/-- One call of `kv_add_item` with a non-empty key on a well-formed table, whatever the
allocation outcomes: the table is unchanged, or a slot is appended, or the first matching
item gets a value. -/
theorem kv_add_item_spec (a : alloc_t) (t : kv_table_t) (k : String) (v : Option String)
    (hwf : t.well_formed) (hk : strlen k ≠ 0) :
    ∃ t2, kv_add_item a (some t) (some k) v = .ok (some t2) ∧ t2.count = t2.slots.length ∧
      ((first_match k t.slots = none ∧ (t2 = t ∨
          t2.slots = t.slots ++ [some ⟨X_STRDUP a.key k, v.bind (X_STRDUP a.value)⟩])) ∨
       (∃ i it, first_match k t.slots = some i ∧ t.slots.get? i = some (some it) ∧
          slot_matches k (some it) ∧
          t2.slots = t.slots.set i (some ⟨it.key, v.bind (X_STRDUP a.value)⟩))) := by
  cases hf : first_match k t.slots with
  | none =>
    by_cases ha : a.item = true ∧ a.list = true
    · refine ⟨_, kv_add_item_new a t k v hwf hk hf ha.1 ha.2, ?_, Or.inl ⟨rfl, Or.inr rfl⟩⟩
      simp [kv_table_t.slots, hwf.1]
    · refine ⟨t, kv_add_item_new_fail a t k v hwf hf ?_, hwf.1, Or.inl ⟨rfl, Or.inl rfl⟩⟩
      cases hi : a.item <;> cases hl : a.list <;> simp [hi, hl] at ha ⊢
  | some i =>
    obtain ⟨it, hit, hm⟩ := first_match_item k t.slots i hf
    refine ⟨_, kv_add_item_existing a t k v hwf hk i it hf hit, ?_,
      Or.inr ⟨i, it, rfl, hit, hm, rfl⟩⟩
    simp [kv_table_t.slots, hwf.1]

theorem kv_item_at_iff (t : kv_table_t) (i : Nat) (it : kv_item_t) :
    kv_item_at t i = .ok it ↔ t.slots.get? i = some (some it) :=
  ⟨kv_item_at_ok t i it, kv_item_at_slots t i it⟩

/-- The lookup of a key that does not match `k` is the same before and after a put of
`k` whose key duplication succeeds. -/
theorem kv_add_item_other_key (a : alloc_t) (t t2 : kv_table_t) (k k2 : String)
    (v : Option String) (hwf : t.well_formed) (hk : strlen k ≠ 0) (hne : ¬ ci_eq k k2)
    (hkey : a.key = true) (hadd : kv_add_item a (some t) (some k) v = .ok (some t2)) :
    kv_get_value (some t2) (some k2) = kv_get_value (some t) (some k2) := by
  obtain ⟨t3, hadd3, hc3, hcase⟩ := kv_add_item_spec a t k v hwf hk
  rw [hadd3] at hadd
  injection hadd with hadd
  injection hadd with hadd
  subst hadd
  rcases hcase with ⟨hf, rfl | hs⟩ | ⟨i, it, hf, hit, hm, hs⟩
  · rfl
  · have hdup : X_STRDUP a.key k = some k := by simp [X_STRDUP, hkey]
    rw [hdup] at hs
    have hwf3 : t3.well_formed := by
      refine ⟨hc3, ?_⟩
      rw [hs]
      intro s hs2
      rcases List.mem_append.1 hs2 with h1 | h1
      · exact hwf.2 s h1
      · simp only [List.mem_singleton] at h1
        subst h1
        rfl
    have hnm : ¬ slot_matches k2 (some ⟨some k, v.bind (X_STRDUP a.value)⟩) :=
      fun h => hne (ci_eq_symm h)
    rw [kv_get_value_wf t3 k2 hwf3, kv_get_value_wf t k2 hwf, hs, first_match_append]
    cases hf2 : first_match k2 t.slots with
    | none => simp [hnm]
    | some j =>
      obtain ⟨it2, hit2, _⟩ := first_match_item k2 t.slots j hf2
      simp only [get?_append_left _ _ _ _ hit2, hit2]
  · have hwf3 : t3.well_formed := by
      refine ⟨hc3, ?_⟩
      rw [hs]
      intro s hs2
      rcases List.mem_or_eq_of_mem_set hs2 with h1 | h1
      · exact hwf.2 s h1
      · subst h1
        exact hwf.2 (some it) (List.get?_mem hit)
    rw [kv_get_value_wf t3 k2 hwf3, kv_get_value_wf t k2 hwf, hs,
      first_match_keys k2 _ t.slots (set_keys t.slots i it _ hit)]
    cases hf2 : first_match k2 t.slots with
    | none => rfl
    | some j =>
      obtain ⟨it2, hit2, hm2⟩ := first_match_item k2 t.slots j hf2
      have hij : i ≠ j := by
        rintro rfl
        rw [hit] at hit2
        injection hit2 with hit2
        injection hit2 with hit2
        subst hit2
        unfold slot_matches at hm hm2
        cases hkk : slot_key (some it) with
        | none => simp [hkk] at hm
        | some k3 =>
          rw [hkk] at hm hm2
          exact hne (ci_eq_trans hm (ci_eq_symm hm2))
      simp only [get?_set_other _ _ _ _ hij]

/-- Every item of the table keeps its slot and its key through a put, and keeps its value
unless its key matches the key put. -/
theorem kv_add_item_keeps_slots (a : alloc_t) (t t2 : kv_table_t) (k : String)
    (v : Option String) (hwf : t.well_formed) (hk : strlen k ≠ 0)
    (hadd : kv_add_item a (some t) (some k) v = .ok (some t2)) (j : Nat) (it : kv_item_t)
    (hj : kv_item_at t j = .ok it) :
    ∃ it2, kv_item_at t2 j = .ok it2 ∧ it2.key = it.key ∧
      (¬ slot_matches k (some it) → it2 = it) := by
  obtain ⟨t3, hadd3, _, hcase⟩ := kv_add_item_spec a t k v hwf hk
  rw [hadd3] at hadd
  injection hadd with hadd
  injection hadd with hadd
  subst hadd
  rw [kv_item_at_iff] at hj
  rcases hcase with ⟨_, rfl | hs⟩ | ⟨i, it0, _, hit, hm, hs⟩
  · exact ⟨it, (kv_item_at_iff _ _ _).2 hj, rfl, fun _ => rfl⟩
  · refine ⟨it, (kv_item_at_iff _ _ _).2 ?_, rfl, fun _ => rfl⟩
    rw [hs]
    exact get?_append_left _ _ _ _ hj
  · by_cases hij : i = j
    · subst hij
      rw [hit] at hj
      injection hj with hj
      injection hj with hj
      subst hj
      refine ⟨⟨it0.key, v.bind (X_STRDUP a.value)⟩, (kv_item_at_iff _ _ _).2 ?_, rfl,
        fun h => absurd hm h⟩
      rw [hs]
      exact get?_set_self _ _ _ _ hit
    · refine ⟨it, (kv_item_at_iff _ _ _).2 ?_, rfl, fun _ => rfl⟩
      rw [hs, get?_set_other _ _ _ _ hij]
      exact hj

theorem first_match_unique (k : String) (l : List (Option kv_item_t)) (i : Nat)
    (s : Option kv_item_t) (hnd : l.Pairwise (fun s1 s2 => ¬ slots_ci_eq s1 s2))
    (hi : l.get? i = some s) (hm : slot_matches k s) : first_match k l = some i := by
  induction l generalizing i with
  | nil => simp at hi
  | cons s0 rest ih =>
    obtain ⟨h0, hrest⟩ := List.pairwise_cons.1 hnd
    cases i with
    | zero =>
      simp only [List.get?_cons_zero, Option.some.injEq] at hi
      subst hi
      simp [first_match, hm]
    | succ j =>
      simp only [List.get?_cons_succ] at hi
      have hn0 : ¬ slot_matches k s0 :=
        fun h => h0 s (List.get?_mem hi) (slot_matches_both k s0 s h hm)
      simp [first_match, hn0, ih j hrest hi]

theorem kv_get_item_by_index_slot (t : kv_table_t) (i : Nat) (it : kv_item_t)
    (hc : t.count = t.slots.length) (h : t.slots.get? i = some (some it)) :
    kv_get_item_by_index (some t) i = .ok (it.key, it.value) := by
  have hlt := get?_lt_length _ _ _ h
  have hle : ¬ i > t.count := by omega
  simp only [kv_get_item_by_index, hle, if_false, kv_item_at_slots t i it h]

theorem kv_get_item_by_index_key (t : kv_table_t) (i : Nat) (k : String)
    (v : Option String) (h : kv_get_item_by_index (some t) i = .ok (some k, v)) :
    t.slots.get? i = some (some ⟨some k, v⟩) := by
  simp only [kv_get_item_by_index] at h
  by_cases hgt : i > t.count
  · simp [hgt] at h
  · simp only [hgt, if_false] at h
    cases hat : kv_item_at t i with
    | error f => simp [hat] at h
    | ok it =>
      simp only [hat, Except.ok.injEq, Prod.mk.injEq] at h
      obtain ⟨key, value⟩ := it
      simp only at h
      rw [← h.1, ← h.2]
      exact kv_item_at_ok t i _ hat

theorem ci_eq_strlen (k k2 : String) (h : ci_eq k2 k) (hk : strlen k ≠ 0) : strlen k2 ≠ 0 := by
  have hlen := congrArg List.length h
  simp only [List.length_map] at hlen
  have h1 : strlen k = k.toList.length := rfl
  have h2 : strlen k2 = k2.toList.length := rfl
  omega

end KvTable

open KvTable

/-! ## The claims -/

/-- C1: put/get round trip.  For every table `T` (with `count` slots, each holding an item
with a key), every non-empty key `K` and every optional value `V`, when all allocations
succeed `kv_add_item` returns and `kv_get_value` of `K` on the resulting table is `V`;
an absent `V` is stored as absent, whether `K` was new or already present. -/
theorem C1_put_get_round_trip (T : kv_table_t) (K : String) (V : Option String)
    (hT : T.well_formed) (hK : strlen K ≠ 0) :
    ∃ T2, kv_add_item alloc_ok (some T) (some K) V = .ok (some T2) ∧
      kv_get_value (some T2) (some K) = .ok V := by
  obtain ⟨T2, hadd, _, hget, _⟩ := kv_add_then_get T K K V hT hK rfl
  exact ⟨T2, hadd, hget⟩

/-- Witness of C1: an absent value put on a key that is already present. -/
theorem C1_put_get_round_trip_witness :
    ∃ T2, kv_add_item alloc_ok (some ⟨none, some [some ⟨some "k", some "v"⟩], 1⟩) (some "K") none
        = .ok (some T2) ∧
      kv_get_value (some T2) (some "K") = .ok none :=
  C1_put_get_round_trip ⟨none, some [some ⟨some "k", some "v"⟩], 1⟩ "K" none
    (by decide) (by decide)

/-- C2: a second put replaces rather than duplicates.  After `kv_add_item(T,K,V1)` a further
`kv_add_item(T,K,V2)` leaves `kv_item_count` unchanged and makes `kv_get_value(T,K)` equal
`V2`, when allocations succeed. -/
theorem C2_second_put_replaces (T : kv_table_t) (K : String) (V1 V2 : Option String)
    (hT : T.well_formed) (hK : strlen K ≠ 0) :
    ∃ T1 T2, kv_add_item alloc_ok (some T) (some K) V1 = .ok (some T1) ∧
      kv_add_item alloc_ok (some T1) (some K) V2 = .ok (some T2) ∧
      kv_item_count (some T2) = kv_item_count (some T1) ∧
      kv_get_value (some T2) (some K) = .ok V2 := by
  obtain ⟨T1, hadd1, hwf1, _, _, _, hpresent⟩ := kv_add_then_get T K K V1 hT hK rfl
  obtain ⟨T2, hadd2, _, hget, _, hcount, _⟩ := kv_add_then_get T1 K K V2 hwf1 hK rfl
  exact ⟨T1, T2, hadd1, hadd2, hcount hpresent, hget⟩

/-- Witness of C2: two puts of a new key on the empty table. -/
theorem C2_second_put_replaces_witness :
    ∃ T1 T2, kv_add_item alloc_ok (some ⟨none, none, 0⟩) (some "user") (some "alice")
        = .ok (some T1) ∧
      kv_add_item alloc_ok (some T1) (some "user") (some "bob") = .ok (some T2) ∧
      kv_item_count (some T2) = kv_item_count (some T1) ∧
      kv_get_value (some T2) (some "user") = .ok (some "bob") :=
  C2_second_put_replaces ⟨none, none, 0⟩ "user" (some "alice") (some "bob")
    (by decide) (by decide)

/-- C3: key matching is case-insensitive.  For every table `T`, non-empty key `K`, value `V`
and key `K2` that differs from `K` only in letter case, after `kv_add_item(T,K,V)` the
lookup `kv_get_value(T,K2)` returns `V`. -/
theorem C3_lookup_case_insensitive (T : kv_table_t) (K K2 : String) (V : Option String)
    (hT : T.well_formed) (hK : strlen K ≠ 0) (hcase : differs_only_in_case K K2) :
    ∃ T2, kv_add_item alloc_ok (some T) (some K) V = .ok (some T2) ∧
      kv_get_value (some T2) (some K2) = .ok V := by
  obtain ⟨T2, hadd, _, hget, _⟩ :=
    kv_add_then_get T K K2 V hT hK (differs_only_in_case_ci K K2 hcase)
  exact ⟨T2, hadd, hget⟩

/-- Witness of C3: put "Foo" -> "x", get "fOO" gives "x". -/
theorem C3_lookup_case_insensitive_witness :
    ∃ T2, kv_add_item alloc_ok (some ⟨none, none, 0⟩) (some "Foo") (some "x") = .ok (some T2) ∧
      kv_get_value (some T2) (some "fOO") = .ok (some "x") :=
  C3_lookup_case_insensitive ⟨none, none, 0⟩ "Foo" "fOO" (some "x") (by decide) (by decide)
    (by
      unfold differs_only_in_case
      refine List.Forall₂.cons ?_ (List.Forall₂.cons ?_ (List.Forall₂.cons ?_ List.Forall₂.nil))
      · exact Or.inr (Or.inl (by decide))
      · exact Or.inr (Or.inr (by decide))
      · exact Or.inr (Or.inr (by decide)))

/-- The reference definitions on an example: two spellings of one key, an empty key and
a null key. -/
theorem expected_iteration_example :
    expected_iteration [(some "user", some "alice"), (some "port", some "5004"),
        (some "", some "x"), (some "USER", some "bob"), (none, some "y")]
      = [(some "user", some "bob"), (some "port", some "5004")] ∧
    distinct_keys [(some "user", some "alice"), (some "port", some "5004"),
        (some "", some "x"), (some "USER", some "bob"), (none, some "y")] = 2 := by
  decide

/-- C4: iteration order.  For every sequence of `kv_add_item` calls applied to a freshly
created table, allocations succeeding, reading `kv_get_item_by_index(T, i)` for
`i = 0 .. kv_item_count(T) - 1` yields exactly one (key, value) pair per distinct key, in
the order of each key's first insertion, with the value given by the last put of that
key. -/
theorem C4_iteration_order (ok_name : Bool) (name : Option String)
    (calls : List (Option String × Option String)) :
    ∃ T, kv_add_items (kv_table_create true ok_name name) (all_succeed calls)
        = .ok (some T) ∧
      kv_iterate (some T) = (expected_iteration calls).map .ok := by
  obtain ⟨n, hn⟩ := kv_table_create_eq ok_name name
  obtain ⟨T, hrun, hwf, hs⟩ := kv_add_items_spec n calls
  refine ⟨T, by rw [hn]; exact hrun, ?_⟩
  rw [kv_iterate_wf T hwf, hs, expected_iteration, List.map_map, List.map_map]
  rfl

/-- C5: for every sequence of `kv_add_item` calls applied to a freshly created table,
allocations succeeding, `kv_item_count(T)` equals the number of distinct non-empty keys
in the sequence, keys that match case-insensitively counting as one. -/
theorem C5_count_is_distinct_keys (ok_name : Bool) (name : Option String)
    (calls : List (Option String × Option String)) :
    ∃ T, kv_add_items (kv_table_create true ok_name name) (all_succeed calls)
        = .ok (some T) ∧
      kv_item_count (some T) = distinct_keys calls := by
  obtain ⟨n, hn⟩ := kv_table_create_eq ok_name name
  obtain ⟨T, hrun, hwf, hs⟩ := kv_add_items_spec n calls
  refine ⟨T, by rw [hn]; exact hrun, ?_⟩
  have hlen := congrArg List.length hs
  rw [List.length_map, first_keys_length, List.map_map] at hlen
  simp only [kv_item_count, hwf.1, hlen, distinct_keys]
  rfl

/-- C6: no-duplicate-keys invariant.  The table returned by `kv_table_create` has no two
items with keys equal up to letter case.  If a table has none, the table after
`kv_add_item` has none, for every key, value and allocation outcome; on a well-formed
table the call does return.  Hence every table reached from a created one by puts has
none, and a sequence of puts whose allocations succeed does reach one. -/
theorem C6_no_duplicate_keys_invariant :
    (∀ (ok_name : Bool) (name : Option String) (T : kv_table_t),
      kv_table_create true ok_name name = some T →
      T.no_duplicate_keys ∧ T.count = T.slots.length) ∧
    (∀ (a : alloc_t) (T : kv_table_t) (K V : Option String),
      T.count = T.slots.length → T.no_duplicate_keys →
      (∀ R, kv_add_item a (some T) K V = .ok R →
        ∃ T2, R = some T2 ∧ T2.no_duplicate_keys ∧ T2.count = T2.slots.length) ∧
      (T.well_formed → ∃ T2, kv_add_item a (some T) K V = .ok (some T2))) ∧
    (∀ (ok_name : Bool) (name : Option String)
      (ops : List (alloc_t × Option String × Option String)) (T2 : kv_table_t),
      kv_add_items (kv_table_create true ok_name name) ops = .ok (some T2) →
      T2.no_duplicate_keys) ∧
    (∀ (ok_name : Bool) (name : Option String) (calls : List (Option String × Option String)),
      ∃ T2, kv_add_items (kv_table_create true ok_name name) (all_succeed calls)
          = .ok (some T2) ∧ T2.no_duplicate_keys) := by
  refine ⟨?_, ?_, ?_, ?_⟩
  · intro ok_name name T h
    obtain ⟨n, hn⟩ := kv_table_create_eq ok_name name
    rw [hn] at h
    injection h with h
    subst h
    exact ⟨List.Pairwise.nil, rfl⟩
  · intro a T K V hc hnd
    refine ⟨fun R h => kv_add_item_keeps_invariant a T K V R hc hnd h, fun hwf => ?_⟩
    obtain ⟨T2, h, _⟩ := kv_add_item_no_duplicate_keys a T K V hwf hnd
    exact ⟨T2, h⟩
  · intro ok_name name ops T2 h
    obtain ⟨n, hn⟩ := kv_table_create_eq ok_name name
    rw [hn] at h
    exact kv_add_items_keeps_invariant ops ⟨n, none, 0⟩ T2 rfl List.Pairwise.nil h
  · intro ok_name name calls
    obtain ⟨n, hn⟩ := kv_table_create_eq ok_name name
    rw [hn]
    obtain ⟨T2, h, _, hnd⟩ := kv_add_items_no_duplicate_keys calls ⟨n, none, 0⟩
      ⟨rfl, by simp [kv_table_t.slots]⟩ List.Pairwise.nil
    exact ⟨T2, h, hnd⟩

/-- Witness of C6: a put of "USER", its value duplication failing, on a table that holds
"user" and "port": the call returns the table with the value of "user" absent, which has
no duplicate keys. -/
theorem C6_no_duplicate_keys_invariant_witness :
    kv_add_item ⟨true, true, false, true⟩
        (some ⟨none, some [some ⟨some "user", some "alice"⟩, some ⟨some "port", none⟩], 2⟩)
        (some "USER") (some "bob")
      = .ok (some ⟨none, some [some ⟨some "user", none⟩, some ⟨some "port", none⟩], 2⟩) ∧
    ∃ T2, some (⟨none, some [some ⟨some "user", none⟩, some ⟨some "port", none⟩], 2⟩ :
        kv_table_t) = some T2 ∧ T2.no_duplicate_keys ∧ T2.count = T2.slots.length :=
  ⟨by decide,
    (C6_no_duplicate_keys_invariant.2.1 ⟨true, true, false, true⟩
      ⟨none, some [some ⟨some "user", some "alice"⟩, some ⟨some "port", none⟩], 2⟩
      (some "USER") (some "bob") (by decide) (by decide)).1 _ (by decide)⟩

/-- C7: atomic add on growth failure.  For every table `T` and key `K` that no item of `T`
matches, if the reallocation of the block of slots fails inside `kv_add_item`, the table
after the call is the table before the call (same slots in the same order, same count),
and no item with key `K` is part of it: the search for `K` still finds nothing. -/
theorem C7_atomic_add_on_growth_failure (a : alloc_t) (T : kv_table_t) (K : String)
    (V : Option String) (hT : T.well_formed) (hnew : ∀ s ∈ T.slots, ¬ slot_matches K s)
    (hfail : a.list = false) :
    ∃ T2, kv_add_item a (some T) (some K) V = .ok (some T2) ∧ T2 = T ∧
      kv_item_count (some T2) = kv_item_count (some T) ∧
      kv_find_item (some T2) (some K) = .ok none := by
  have hf : first_match K T.slots = none := (first_match_none_iff K T.slots).2 hnew
  refine ⟨T, kv_add_item_new_fail a T K V hT hf (Or.inr hfail), rfl, rfl, ?_⟩
  rw [kv_find_item_wf T K hT, hf]

/-- Witness of C7: the item and both strings are allocated, the reallocation fails. -/
theorem C7_atomic_add_on_growth_failure_witness :
    ∃ T2, kv_add_item ⟨true, true, true, false⟩
        (some ⟨some "session", some [some ⟨some "user", some "alice"⟩], 1⟩)
        (some "port") (some "5004") = .ok (some T2) ∧
      T2 = ⟨some "session", some [some ⟨some "user", some "alice"⟩], 1⟩ ∧
      kv_item_count (some T2)
        = kv_item_count (some ⟨some "session", some [some ⟨some "user", some "alice"⟩], 1⟩) ∧
      kv_find_item (some T2) (some "port") = .ok none :=
  C7_atomic_add_on_growth_failure ⟨true, true, true, false⟩
    ⟨some "session", some [some ⟨some "user", some "alice"⟩], 1⟩ "port" (some "5004")
    (by decide) (by decide) rfl

/-- C8 (evaluation of the code where the claim fails): a failed text duplication inside
`kv_add_item` is not rolled back.  On the update path the previous value "x" of the key is
released and the value is left absent; on the add path a failed value duplication stores
the item with an absent value and a failed key duplication stores an item with a null key,
on which the next search hands a null pointer to `strcasecmp`. -/
theorem C8_failed_duplication_changes_table :
    kv_add_item ⟨true, true, false, true⟩ (some ⟨none, some [some ⟨some "a", some "x"⟩], 1⟩)
        (some "a") (some "y")
      = .ok (some ⟨none, some [some ⟨some "a", none⟩], 1⟩) ∧
    kv_add_item ⟨true, true, false, true⟩ (some ⟨none, none, 0⟩) (some "a") (some "y")
      = .ok (some ⟨none, some [some ⟨some "a", none⟩], 1⟩) ∧
    kv_add_item ⟨true, false, true, true⟩ (some ⟨none, none, 0⟩) (some "a") (some "y")
      = .ok (some ⟨none, some [some ⟨none, some "y"⟩], 1⟩) ∧
    kv_find_item (some ⟨none, some [some ⟨none, some "y"⟩], 1⟩) (some "a")
      = .error .null_deref := by
  decide

/-- C9: invalid-argument puts are no-ops.  With a null table, a null key or a zero-length
key, `kv_add_item` returns without an undefined access and leaves the table as it was (same
slots, same count), whatever the value and the allocation outcomes. -/
theorem C9_invalid_argument_puts_are_noops (a : alloc_t) (T : kv_table_t)
    (K V : Option String) :
    kv_add_item a none K V = .ok none ∧
    kv_add_item a (some T) none V = .ok (some T) ∧
    kv_add_item a (some T) (some "") V = .ok (some T) := by
  refine ⟨rfl, rfl, ?_⟩
  simp [kv_add_item, strlen]

/-- C10: missing keys are absent.  `kv_find_item` and `kv_get_value` return absent on a
null table, on a freshly created table, for a null key, and for every table `T` and key
`K` such that no item of `T` has a key equal to `K` up to letter case. -/
theorem C10_missing_keys_absent :
    (∀ K : Option String, kv_find_item none K = .ok none ∧ kv_get_value none K = .ok none) ∧
    (∀ (ok_name : Bool) (name K : Option String),
      kv_find_item (kv_table_create true ok_name name) K = .ok none ∧
      kv_get_value (kv_table_create true ok_name name) K = .ok none) ∧
    (∀ T : kv_table_t, kv_find_item (some T) none = .ok none ∧
      kv_get_value (some T) none = .ok none) ∧
    (∀ (T : kv_table_t) (K : String), T.well_formed →
      (∀ s ∈ T.slots, ¬ slot_matches K s) →
      kv_find_item (some T) (some K) = .ok none ∧
      kv_get_value (some T) (some K) = .ok none) := by
  refine ⟨fun K => ⟨rfl, rfl⟩, ?_, fun T => ⟨rfl, rfl⟩, ?_⟩
  · intro ok_name name K
    cases K <;> exact ⟨rfl, rfl⟩
  · intro T K hT hmiss
    have hf : first_match K T.slots = none := (first_match_none_iff K T.slots).2 hmiss
    have hfind : kv_find_item (some T) (some K) = .ok none := by
      rw [kv_find_item_wf T K hT, hf]
    refine ⟨hfind, ?_⟩
    simp only [kv_get_value, hfind]

/-- Witness of C10: a table with two items asked for a third key. -/
theorem C10_missing_keys_absent_witness :
    kv_find_item (some ⟨none, some [some ⟨some "user", some "bob"⟩,
        some ⟨some "port", none⟩], 2⟩) (some "missing") = .ok none ∧
    kv_get_value (some ⟨none, some [some ⟨some "user", some "bob"⟩,
        some ⟨some "port", none⟩], 2⟩) (some "missing") = .ok none :=
  C10_missing_keys_absent.2.2.2
    ⟨none, some [some ⟨some "user", some "bob"⟩, some ⟨some "port", none⟩], 2⟩ "missing"
    (by decide) (by decide)

/-- C11: destroy nulls the handle and a null handle is inert.  `kv_table_destroy` leaves
the caller's handle null, for every table whose `count` is its number of slots; on a null
handle (and on a null pointer to the handle) it is a no-op, so destroying twice is
destroying once; on a null handle `kv_item_count` returns 0, `kv_find_item` and
`kv_get_value` return absent, `kv_add_item` does nothing and `kv_get_item_by_index` sets
both outputs to absent. -/
theorem C11_destroy_nulls_handle_null_is_inert :
    (∀ T : kv_table_t, T.count = T.slots.length →
      kv_table_destroy (some (some T)) = .ok (some none) ∧
      (∀ h, kv_table_destroy (some (some T)) = .ok h → kv_table_destroy h = .ok h)) ∧
    kv_table_destroy (some none) = .ok (some none) ∧
    kv_table_destroy_events (some none) = [] ∧
    kv_table_destroy none = .ok none ∧
    kv_item_count none = 0 ∧
    (∀ K : Option String, kv_find_item none K = .ok none ∧ kv_get_value none K = .ok none) ∧
    (∀ (a : alloc_t) (K V : Option String), kv_add_item a none K V = .ok none) ∧
    (∀ index : Nat, kv_get_item_by_index none index = .ok (none, none)) := by
  refine ⟨?_, rfl, rfl, rfl, rfl, fun K => ⟨rfl, rfl⟩, fun a K V => rfl, fun index => rfl⟩
  intro T hc
  obtain ⟨mid, hrun, _⟩ := kv_table_destroy_run_spec T hc
  have hd : kv_table_destroy (some (some T)) = .ok (some none) := by
    simp only [kv_table_destroy, hrun]
  refine ⟨hd, ?_⟩
  intro h hh
  rw [hd] at hh
  injection hh with hh
  subst hh
  rfl

/-- Witness of C11: a table with two items, one of them without a value. -/
theorem C11_destroy_nulls_handle_null_is_inert_witness :
    kv_table_destroy (some (some ⟨some "session",
        some [some ⟨some "user", some "bob"⟩, some ⟨some "port", none⟩], 2⟩))
      = .ok (some none) ∧
    (∀ h, kv_table_destroy (some (some ⟨some "session",
        some [some ⟨some "user", some "bob"⟩, some ⟨some "port", none⟩], 2⟩)) = .ok h →
      kv_table_destroy h = .ok h) :=
  C11_destroy_nulls_handle_null_is_inert.1
    ⟨some "session", some [some ⟨some "user", some "bob"⟩, some ⟨some "port", none⟩], 2⟩
    (by decide)

/-- C12 (evaluation of the code where the claim fails): at `index == count` the test
`index > table->count` lets the call through and `table->items[index]` is read one slot
past the block: on a freshly created table the block is null, on a table with `count`
slots the read is outside the block. -/
theorem C12_index_equal_count_reads_outside :
    (∀ (ok_name : Bool) (name : Option String),
      kv_get_item_by_index (kv_table_create true ok_name name)
        (kv_item_count (kv_table_create true ok_name name)) = .error .null_deref) ∧
    (∀ (name : Option String) (l : List (Option kv_item_t)),
      kv_get_item_by_index (some ⟨name, some l, l.length⟩)
        (kv_item_count (some ⟨name, some l, l.length⟩)) = .error .out_of_bounds) ∧
    kv_get_item_by_index (some ⟨none, some [some ⟨some "user", some "bob"⟩], 1⟩) 1
      = .error .out_of_bounds := by
  refine ⟨fun ok_name name => rfl, ?_, by decide⟩
  intro name l
  have hget : l.get? l.length = none := List.get?_eq_none.2 (le_refl _)
  simp only [kv_get_item_by_index, kv_item_count, gt_iff_lt, lt_self_iff_false, if_false,
    kv_item_at, hget]

/-- C13: positional access out of range is silent.  For every table (null or not) and
every index strictly greater than `kv_item_count`, `kv_get_item_by_index` sets both
outputs to absent without an undefined access; the call takes and releases the lock and
writes nothing to the table. -/
theorem C13_index_above_count_is_absent (T : Option kv_table_t) (index : Nat)
    (h : index > kv_item_count T) :
    kv_get_item_by_index T index = .ok (none, none) ∧
    (∀ t, T = some t → kv_get_item_by_index_events T index = [.lock, .access, .unlock]) := by
  cases T with
  | none => exact ⟨rfl, fun t ht => by cases ht⟩
  | some t =>
    simp only [kv_item_count] at h
    refine ⟨by simp only [kv_get_item_by_index, h, if_true], ?_⟩
    intro t2 _
    simp only [kv_get_item_by_index_events, h, if_true, kv_table_lock, kv_table_unlock]
    rfl

/-- Witness of C13: index 5 on a table with one item. -/
theorem C13_index_above_count_is_absent_witness :
    kv_get_item_by_index (some ⟨none, some [some ⟨some "user", some "bob"⟩], 1⟩) 5
      = .ok (none, none) ∧
    (∀ t, some (⟨none, some [some ⟨some "user", some "bob"⟩], 1⟩ : kv_table_t) = some t →
      kv_get_item_by_index_events (some ⟨none, some [some ⟨some "user", some "bob"⟩], 1⟩) 5
        = [.lock, .access, .unlock]) :=
  C13_index_above_count_is_absent (some ⟨none, some [some ⟨some "user", some "bob"⟩], 1⟩) 5
    (by decide)

/-- C14: the concrete scenario.  From `kv_table_create("session")`, the puts
"user" -> "alice", "port" -> "5004", "user" -> "bob" with allocations succeeding give a
table with `kv_item_count` 2, `kv_get_value` "bob" for "user" and "5004" for "PORT", and
`kv_get_item_by_index` at 0 yields ("user", "bob"). -/
theorem C14_session_scenario :
    ∃ T, kv_add_items (kv_table_create true true (some "session"))
        (all_succeed [(some "user", some "alice"), (some "port", some "5004"),
          (some "user", some "bob")]) = .ok T ∧
      kv_item_count T = 2 ∧
      kv_get_value T (some "user") = .ok (some "bob") ∧
      kv_get_value T (some "PORT") = .ok (some "5004") ∧
      kv_get_item_by_index T 0 = .ok (some "user", some "bob") :=
  ⟨some ⟨some "session",
      some [some ⟨some "user", some "bob"⟩, some ⟨some "port", some "5004"⟩], 2⟩,
    by decide, by decide, by decide, by decide, by decide⟩

/-- C16 (evaluation of the code where the claim fails): when the duplication of the key
fails, `kv_add_item` on a freshly created table stores an item whose key is null and
counts it; a later search hands that null key to `strcasecmp`. -/
theorem C16_failed_key_duplication_stores_null_key :
    kv_add_items (kv_table_create true true (some "session"))
        [(⟨true, false, true, true⟩, some "user", some "alice")]
      = .ok (some ⟨some "session", some [some ⟨none, some "alice"⟩], 1⟩) ∧
    kv_get_item_by_index (some ⟨some "session", some [some ⟨none, some "alice"⟩], 1⟩) 0
      = .ok (none, some "alice") ∧
    kv_get_value (some ⟨some "session", some [some ⟨none, some "alice"⟩], 1⟩) (some "user")
      = .error .null_deref := by
  decide

/-- C17 (evaluation of the code where the claim fails): `kv_find_item`, `kv_get_value` and
`kv_add_item` read and write `items` and `count` without ever taking the lock, on every
table and key, whereas `kv_item_count` and `kv_get_item_by_index` access them between
lock and unlock only. -/
theorem C17_find_get_add_access_without_lock :
    kv_find_item_events (some ⟨none, some [some ⟨some "user", some "bob"⟩], 1⟩) (some "user")
      = [.access, .access, .access, .access, .access] ∧
    kv_add_item_events alloc_ok (some ⟨none, some [some ⟨some "user", some "bob"⟩], 1⟩)
        (some "port")
      = [.access, .access, .access, .access, .access, .access, .access, .access, .access] ∧
    (∀ (t : kv_table_t) (k : String),
      lock_disciplined (kv_find_item_events (some t) (some k)) = false) ∧
    (∀ (t : kv_table_t) (k : String),
      lock_disciplined (kv_get_value_events (some t) (some k)) = false) ∧
    (∀ (a : alloc_t) (t : kv_table_t) (k : String),
      lock_disciplined (kv_add_item_events a (some t) (some k)) = decide (strlen k = 0)) ∧
    (∀ table : Option kv_table_t, lock_disciplined (kv_item_count_events table) = true) ∧
    (∀ (table : Option kv_table_t) (index : Nat),
      lock_disciplined (kv_get_item_by_index_events table index) = true) := by
  refine ⟨by decide, by decide, kv_find_item_events_undisciplined,
    kv_find_item_events_undisciplined, ?_, ?_, ?_⟩
  · intro a t k
    by_cases hk : strlen k = 0
    · simp only [kv_add_item_events, hk, if_true, decide_True]
      rfl
    · have hfind : ∃ rest, kv_find_item_events (some t) (some k) = .access :: rest := ⟨_, rfl⟩
      obtain ⟨rest, hrest⟩ := hfind
      simp only [kv_add_item_events, hk, if_false, hrest, decide_False]
      rfl
  · intro table
    cases table <;> rfl
  · intro table index
    cases table with
    | none => rfl
    | some t =>
      by_cases h : index > t.count
      · simp only [kv_get_item_by_index_events, h, if_true]
        rfl
      · simp only [kv_get_item_by_index_events, h, if_false]
        cases kv_item_at t index <;> rfl

/-- C18: destroy lock ordering.  For every non-null table whose `count` is its number of
slots, `kv_table_destroy` takes the lock first, then only accesses `items` and `count`,
releases the lock once and destroys the lock primitive right after the release, on the
path of the early jump as on the path that releases the items; the lock is never
destroyed while held. -/
theorem C18_destroy_lock_ordering :
    (∀ T : kv_table_t, T.count = T.slots.length →
      ∃ mid, kv_table_destroy_events (some (some T))
          = [.lock] ++ mid ++ [.unlock, .lock_destroy] ∧
        (∀ e ∈ mid, e = Event.access) ∧
        lock_disciplined (kv_table_destroy_events (some (some T))) = true) ∧
    (∀ name : Option String,
      kv_table_destroy_events (some (some ⟨name, none, 0⟩))
        = [.lock, .access, .unlock, .lock_destroy]) ∧
    (∀ (name : Option String) (it : kv_item_t),
      kv_table_destroy_events (some (some ⟨name, some [some it], 1⟩))
        = [.lock, .access, .access, .access, .access, .access, .access, .access, .access,
            .access, .unlock, .lock_destroy]) := by
  refine ⟨?_, fun name => rfl, fun name it => rfl⟩
  intro T hc
  obtain ⟨mid, hrun, hmid⟩ := kv_table_destroy_run_spec T hc
  have hev : kv_table_destroy_events (some (some T))
      = [.lock] ++ mid ++ [.unlock, .lock_destroy] := by
    simp only [kv_table_destroy_events, hrun]
  refine ⟨mid, hev, hmid, ?_⟩
  rw [hev, lock_disciplined, List.append_assoc]
  change lock_disciplined_from true (mid ++ [.unlock, .lock_destroy]) = true
  rw [lock_disciplined_from_accesses mid _ hmid]
  rfl

/-- Witness of C18: a table with two items. -/
theorem C18_destroy_lock_ordering_witness :
    ∃ mid, kv_table_destroy_events (some (some ⟨some "session",
          some [some ⟨some "user", some "bob"⟩, some ⟨some "port", none⟩], 2⟩))
        = [.lock] ++ mid ++ [.unlock, .lock_destroy] ∧
      (∀ e ∈ mid, e = Event.access) ∧
      lock_disciplined (kv_table_destroy_events (some (some ⟨some "session",
          some [some ⟨some "user", some "bob"⟩, some ⟨some "port", none⟩], 2⟩))) = true :=
  C18_destroy_lock_ordering.1
    ⟨some "session", some [some ⟨some "user", some "bob"⟩, some ⟨some "port", none⟩], 2⟩
    (by decide)

/-- C19: put leaves other keys alone.  For every well-formed table `T`, non-empty key `K`,
value `V` and key `K2` that does not match `K` up to letter case, `kv_add_item(T,K,V)`
returns; `kv_get_value(T,K2)` is the same after as before (the duplication of the key
succeeding), and every item of `T` keeps its index: the slot holds an item with the same
key, and the same item unless its key matches `K`. -/
theorem C19_put_leaves_other_keys_alone (a : alloc_t) (T : kv_table_t) (K K2 : String)
    (V : Option String) (hT : T.well_formed) (hK : strlen K ≠ 0) (hne : ¬ ci_eq K K2) :
    ∃ T2, kv_add_item a (some T) (some K) V = .ok (some T2) ∧
      (a.key = true → kv_get_value (some T2) (some K2) = kv_get_value (some T) (some K2)) ∧
      (∀ i it, kv_item_at T i = .ok it →
        ∃ it2, kv_item_at T2 i = .ok it2 ∧ it2.key = it.key ∧
          (¬ slot_matches K (some it) → it2 = it)) := by
  obtain ⟨T2, hadd, _⟩ := kv_add_item_spec a T K V hT hK
  exact ⟨T2, hadd, fun hkey => kv_add_item_other_key a T T2 K K2 V hT hK hne hkey hadd,
    fun i it hi => kv_add_item_keeps_slots a T T2 K V hT hK hadd i it hi⟩

/-- Witness of C19: a put of "port" on a table that holds "user" and "port". -/
theorem C19_put_leaves_other_keys_alone_witness :
    ∃ T2, kv_add_item alloc_ok
        (some ⟨none, some [some ⟨some "user", some "bob"⟩, some ⟨some "port", none⟩], 2⟩)
        (some "PORT") (some "5004") = .ok (some T2) ∧
      (alloc_ok.key = true → kv_get_value (some T2) (some "user")
        = kv_get_value
            (some ⟨none, some [some ⟨some "user", some "bob"⟩, some ⟨some "port", none⟩], 2⟩)
            (some "user")) ∧
      (∀ i it, kv_item_at
          ⟨none, some [some ⟨some "user", some "bob"⟩, some ⟨some "port", none⟩], 2⟩ i
          = .ok it →
        ∃ it2, kv_item_at T2 i = .ok it2 ∧ it2.key = it.key ∧
          (¬ slot_matches "PORT" (some it) → it2 = it)) :=
  C19_put_leaves_other_keys_alone alloc_ok
    ⟨none, some [some ⟨some "user", some "bob"⟩, some ⟨some "port", none⟩], 2⟩
    "PORT" "user" (some "5004") (by decide) (by decide) (by decide)

/-- C20: an update keeps the stored key spelling and position.  For every well-formed
table `T` without duplicate keys that holds the non-empty key `K` at index `i`, and every
key `K2` that matches `K` up to letter case, `kv_add_item(T,K2,V)` returns and
`kv_get_item_by_index(T,i)` still yields the key `K`, not `K2`, with the value `V` when
the duplication of the value succeeds. -/
theorem C20_update_keeps_key_and_position (a : alloc_t) (T : kv_table_t) (i : Nat)
    (K K2 : String) (V0 V : Option String) (hT : T.well_formed) (hnd : T.no_duplicate_keys)
    (hK : strlen K ≠ 0) (hat : kv_get_item_by_index (some T) i = .ok (some K, V0))
    (hci : ci_eq K2 K) :
    ∃ T2, kv_add_item a (some T) (some K2) V = .ok (some T2) ∧
      kv_item_count (some T2) = kv_item_count (some T) ∧
      (∃ V2, kv_get_item_by_index (some T2) i = .ok (some K, V2)) ∧
      (a.value = true → kv_get_item_by_index (some T2) i = .ok (some K, V)) := by
  have hit := kv_get_item_by_index_key T i K V0 hat
  have hf : first_match K2 T.slots = some i :=
    first_match_unique K2 T.slots i _ hnd hit hci
  have hK2 := ci_eq_strlen K K2 hci hK
  have hadd := kv_add_item_existing a T K2 V hT hK2 i ⟨some K, V0⟩ hf hit
  have hget : kv_get_item_by_index
      (some ⟨T.name, some (T.slots.set i (some ⟨some K, V.bind (X_STRDUP a.value)⟩)), T.count⟩) i
      = .ok (some K, V.bind (X_STRDUP a.value)) := by
    apply kv_get_item_by_index_slot _ i ⟨some K, V.bind (X_STRDUP a.value)⟩
    · simp [kv_table_t.slots, hT.1]
    · exact get?_set_self _ _ _ _ hit
  refine ⟨_, hadd, rfl, ⟨_, hget⟩, ?_⟩
  intro hv
  rw [hget]
  cases V <;> simp [X_STRDUP, hv]

/-- Witness of C20: a put of "USER" on a table that holds "user" at index 0. -/
theorem C20_update_keeps_key_and_position_witness :
    ∃ T2, kv_add_item alloc_ok
        (some ⟨none, some [some ⟨some "user", some "alice"⟩, some ⟨some "port", none⟩], 2⟩)
        (some "USER") (some "bob") = .ok (some T2) ∧
      kv_item_count (some T2) = kv_item_count
        (some ⟨none, some [some ⟨some "user", some "alice"⟩, some ⟨some "port", none⟩], 2⟩) ∧
      (∃ V2, kv_get_item_by_index (some T2) 0 = .ok (some "user", V2)) ∧
      (alloc_ok.value = true →
        kv_get_item_by_index (some T2) 0 = .ok (some "user", some "bob")) :=
  C20_update_keeps_key_and_position alloc_ok
    ⟨none, some [some ⟨some "user", some "alice"⟩, some ⟨some "port", none⟩], 2⟩ 0
    "user" "USER" (some "alice") (some "bob") (by decide) (by decide) (by decide) (by decide)
    (by decide)
